import Mathlib

/-
Verification of the migration engine of juliazadorozhnaya/sql-migrator.

The embedding models `processes/migrator.go` together with the ledger
contract of `storage/storage.go`.  The ledger is a list of records with
upsert-by-(version, name) semantics; `SELECT ... ORDER BY Version DESC
LIMIT 1` becomes `lastByStatus`; the database clock is a counter threaded
through the state; storage effects whose outcome depends on the outside
world (lock acquisition, ledger writes, SQL execution, Go callbacks) are
given by an environment of result oracles.  Go panics (out-of-range list
indexing) are modelled by the `panicked` outcome; `defer Unlock` runs on
both normal return and panic, exactly as in Go.
-/

def StatusProcess : String := "process"

def StatusSuccess : String := "success"

def StatusError : String := "error"

def StatusCancellation : String := "cancellation"

def StatusCancel : String := "cancel"

/-- Go error values of `processes/migrator.go` and `storage/storage.go`;
`ext` carries an error produced by the database / a migration callback. -/
inductive GoErr where
  | migrationUp
  | migrationDown
  | migrationRedo
  | getStatus
  | getVersion
  | unexpectedVersion
  | notFound
  | unexpectedStatus
  | ext (msg : String)
deriving DecidableEq, Repr

/-- Result of one engine operation: normal return value of the Go function,
or a runtime panic (out-of-range slice index). -/
inductive Outcome where
  | ok
  | err (e : GoErr)
  | panicked
deriving DecidableEq, Repr

/-- One row of the `schema_migrations` table. -/
structure Rec where
  version : Int
  name : String
  status : String
  time : Nat
deriving DecidableEq, Repr

/-- The in-memory `storage.Migration` value.  A Go callback (`UpGo` /
`DownGo`) is `none` when the function pointer is nil, and `some r` when
present, where `r` is the result of invoking it (`none` = success,
`some e` = failure with error `e`). -/
structure Migration where
  name : String
  version : Int
  status : String
  statusChangeTime : Nat
  up : String
  down : String
  upGo : Option (Option String)
  downGo : Option (Option String)
deriving DecidableEq, Repr

/-- Observable events of one run: lock traffic, successful ledger writes,
and executions of migration actions (SQL payloads or Go callbacks). -/
inductive Event where
  | lockAcquire
  | lockRelease
  | ledgerWrite (version : Int) (name status : String) (time : Nat)
  | action (isUp : Bool) (version : Int)
deriving DecidableEq, Repr

/-- State of a `Migrator` plus its connected storage: the definition list,
the ledger table, the clock, the advisory-lock state, the event trace and
the rows handed to the logger by `Status`. -/
structure MState where
  migrations : List Migration
  ledger : List Rec
  clock : Nat
  locked : Bool
  trace : List Event
  reported : List Rec
deriving DecidableEq, Repr

/-- Outcome oracles for the effectful storage operations. -/
structure Env where
  lockErr : Option String
  insertRes : Rec → Option String
  migrateRes : String → Option String

def recOf (d : Migration) : Rec :=
  ⟨d.version, d.name, d.status, d.statusChangeTime⟩

/-- `InsertMigration`'s SQL: update the row keyed by (version, name) if it
exists, else insert a new row. -/
def upsert (l : List Rec) (r : Rec) : List Rec :=
  if l.any (fun x => x.version = r.version ∧ x.name = r.name) then
    l.map (fun x =>
      if x.version = r.version ∧ x.name = r.name then
        { x with status := r.status, time := r.time }
      else x)
  else l ++ [r]

/-- Effect of a successful `storage.InsertMigration`: the upsert is
performed and recorded in the trace (a failed write, `env.insertRes r =
some e`, leaves the state untouched and surfaces `e` to the caller). -/
def writeRec (s : MState) (r : Rec) : MState :=
  { s with
    ledger := upsert s.ledger r,
    trace := s.trace ++ [Event.ledgerWrite r.version r.name r.status r.time] }

/-- `SELECT ... WHERE Status = st ORDER BY Version DESC LIMIT 1`: the
record with the given status of maximal version (rows have distinct
versions in every state the engine produces). -/
def lastByStatus : List Rec → String → Option Rec
  | [], _ => none
  | r :: rest, st =>
      if r.status = st then
        match lastByStatus rest st with
        | none => some r
        | some b => if r.version < b.version then some b else some r
      else lastByStatus rest st

def validStatus (st : String) : Bool :=
  st = StatusProcess || st = StatusSuccess || st = StatusError ||
    st = StatusCancellation || st = StatusCancel

/-- `storage.SelectLastMigrationByStatus`. -/
def selectLastMigrationByStatus (l : List Rec) (st : String) : Except GoErr Rec :=
  if validStatus st then
    match lastByStatus l st with
    | some r => Except.ok r
    | none => Except.error GoErr.notFound
  else Except.error GoErr.unexpectedStatus

/-- Version-descending order used by `SelectMigrations`. -/
def versionGE (a b : Rec) : Prop := b.version ≤ a.version

instance : DecidableRel versionGE := fun a b =>
  inferInstanceAs (Decidable (b.version ≤ a.version))

instance : IsTotal Rec versionGE := ⟨fun a b => le_total b.version a.version⟩

instance : IsTrans Rec versionGE := ⟨fun _ _ _ hab hbc => le_trans hbc hab⟩

/-- `storage.SelectMigrations`: all rows ordered by version descending;
`ErrMigrationNotFound` when the table is empty. -/
def selectMigrations (l : List Rec) : Except GoErr (List Rec) :=
  let rows := List.insertionSort versionGE l
  if rows.isEmpty then Except.error GoErr.notFound else Except.ok rows

/-- `storage.Lock` succeeded: the advisory lock is held. -/
def lockAcquired (s : MState) : MState :=
  { s with locked := true, trace := s.trace ++ [Event.lockAcquire] }

/-- `storage.Unlock` (run by `defer`, also during a panic). -/
def unlocked (s : MState) : MState :=
  { s with locked := false, trace := s.trace ++ [Event.lockRelease] }

/-- Dispatch of a migration action: a non-nil Go callback takes priority,
otherwise a non-empty SQL payload is executed, otherwise nothing runs.
`none` = no action ran; `some r` = an action ran with result `r`. -/
def runAction (env : Env) (go : Option (Option String)) (sql : String) :
    Option (Option String) :=
  match go with
  | some b => some b
  | none => if sql = "" then none else some (env.migrateRes sql)

/-- Final write of `upMigration` / `downMigration`: mark the definition and
the ledger row with the terminal status. -/
def finishStep (env : Env) (s : MState) (i : Nat) (d1 : Migration)
    (stDone : String) : Outcome × MState :=
  let d2 : Migration := { d1 with status := stDone, statusChangeTime := s.clock }
  let s4 : MState := { s with migrations := s.migrations.set i d2, clock := s.clock + 1 }
  match env.insertRes (recOf d2) with
  | some e => (Outcome.err (GoErr.ext e), s4)
  | none => (Outcome.ok, writeRec s4 (recOf d2))

/-- Shared body of `Migrator.upMigration` and `Migrator.downMigration`
(the two Go functions are textually identical up to the status constants
and the action payload): mark the definition in-progress and write that
row; run the action; on failure mark `error`, write the row discarding the
write's error, and return the action's error; on success mark the terminal
status and write the row. -/
def stepMigration (env : Env) (s : MState) (i : Nat) (isUp : Bool) :
    Outcome × MState :=
  match s.migrations[i]? with
  | none => (Outcome.panicked, s)
  | some d0 =>
      let stStart := if isUp then StatusProcess else StatusCancellation
      let stDone := if isUp then StatusSuccess else StatusCancel
      let go := if isUp then d0.upGo else d0.downGo
      let sql := if isUp then d0.up else d0.down
      let d1 : Migration := { d0 with status := stStart, statusChangeTime := s.clock }
      let s1 : MState :=
        { s with migrations := s.migrations.set i d1, clock := s.clock + 1 }
      match env.insertRes (recOf d1) with
      | some e => (Outcome.err (GoErr.ext e), s1)
      | none =>
          let s2 : MState := writeRec s1 (recOf d1)
          match runAction env go sql with
          | some (some e) =>
              let s3 : MState :=
                { s2 with trace := s2.trace ++ [Event.action isUp d1.version] }
              let d2 : Migration :=
                { d1 with status := StatusError, statusChangeTime := s3.clock }
              let s4 : MState :=
                { s3 with migrations := s3.migrations.set i d2, clock := s3.clock + 1 }
              let s5 : MState :=
                match env.insertRes (recOf d2) with
                | some _ => s4
                | none => writeRec s4 (recOf d2)
              (Outcome.err (GoErr.ext e), s5)
          | some none =>
              let s3 : MState :=
                { s2 with trace := s2.trace ++ [Event.action isUp d1.version] }
              finishStep env s3 i d1 stDone
          | none => finishStep env s2 i d1 stDone

def upMigration (env : Env) (s : MState) (i : Nat) : Outcome × MState :=
  stepMigration env s i true

def downMigration (env : Env) (s : MState) (i : Nat) : Outcome × MState :=
  stepMigration env s i false

/-- The `for i := lastVersion; i < len(m.migrations); i++` loop of `Up`,
running `k` iterations from index `i` (the callers pass
`k = len - i`, and `stepMigration` preserves the list length). -/
def upFrom (env : Env) (s : MState) (i : Nat) : Nat → Outcome × MState
  | 0 => (Outcome.ok, s)
  | Nat.succ k =>
      match upMigration env s i with
      | (Outcome.ok, s') => upFrom env s' (i + 1) k
      | (Outcome.err _, s') => (Outcome.err GoErr.migrationUp, s')
      | (Outcome.panicked, s') => (Outcome.panicked, s')

/-- Entry to the `Up` loop at Go index `start` (an `int`): a negative
start index panics on the first iteration, otherwise the loop covers the
indices from `start` to the end of the list. -/
def upLoopEntry (env : Env) (s : MState) (start : Int) : Outcome × MState :=
  if start < 0 then (Outcome.panicked, s)
  else upFrom env s start.toNat (s.migrations.length - start.toNat)

/-- Body of `Migrator.Up` after the lock has been acquired. -/
def upBody (env : Env) (s : MState) : Outcome × MState :=
  match selectLastMigrationByStatus s.ledger StatusSuccess with
  | Except.error e =>
      if e = GoErr.notFound then upLoopEntry env s 0
      else (Outcome.err e, s)
  | Except.ok rec =>
      if rec.version - 1 > (s.migrations.length : Int) then
        (Outcome.err GoErr.unexpectedVersion, s)
      else upLoopEntry env s rec.version

def Migrator.Up (env : Env) (s : MState) : Outcome × MState :=
  match env.lockErr with
  | some e => (Outcome.err (GoErr.ext e), s)
  | none =>
      let s1 := lockAcquired s
      let r := upBody env s1
      (r.1, unlocked r.2)

/-- Go list indexing with an `int` index: `none` models the out-of-range
panic. -/
def goIndex (l : List Migration) (i : Int) : Option Nat :=
  if 0 ≤ i ∧ i < (l.length : Int) then some i.toNat else none

/-- Body of `Migrator.Down` after the lock has been acquired. -/
def downBody (env : Env) (s : MState) : Outcome × MState :=
  match selectLastMigrationByStatus s.ledger StatusSuccess with
  | Except.error e => (Outcome.err e, s)
  | Except.ok rec =>
      if rec.version - 1 > (s.migrations.length : Int) then
        (Outcome.err GoErr.unexpectedVersion, s)
      else
        match goIndex s.migrations (rec.version - 1) with
        | none => (Outcome.panicked, s)
        | some j =>
            match downMigration env s j with
            | (Outcome.ok, s') => (Outcome.ok, s')
            | (Outcome.err _, s') => (Outcome.err GoErr.migrationDown, s')
            | (Outcome.panicked, s') => (Outcome.panicked, s')

def Migrator.Down (env : Env) (s : MState) : Outcome × MState :=
  match env.lockErr with
  | some e => (Outcome.err (GoErr.ext e), s)
  | none =>
      let s1 := lockAcquired s
      let r := downBody env s1
      (r.1, unlocked r.2)

/-- Tail of `Migrator.Redo` after its own `SelectLastMigrationByStatus`:
index the definition list at `lastVersion` and re-apply that single
definition.  Note this runs after `Down` has already released the lock. -/
def redoUp (env : Env) (s : MState) (lastVersion : Int) : Outcome × MState :=
  match goIndex s.migrations lastVersion with
  | none => (Outcome.panicked, s)
  | some j =>
      match upMigration env s j with
      | (Outcome.ok, s') => (Outcome.ok, s')
      | (Outcome.err _, s') => (Outcome.err GoErr.migrationRedo, s')
      | (Outcome.panicked, s') => (Outcome.panicked, s')

def Migrator.Redo (env : Env) (s : MState) : Outcome × MState :=
  match Migrator.Down env s with
  | (Outcome.ok, s1) =>
      match selectLastMigrationByStatus s1.ledger StatusSuccess with
      | Except.error e =>
          if e = GoErr.notFound then redoUp env s1 0
          else (Outcome.err e, s1)
      | Except.ok rec =>
          if rec.version - 1 > (s1.migrations.length : Int) then
            (Outcome.err GoErr.unexpectedVersion, s1)
          else redoUp env s1 rec.version
  | (Outcome.err e, s1) => (Outcome.err e, s1)
  | (Outcome.panicked, s1) => (Outcome.panicked, s1)

/-- `Migrator.Status`: fetch all rows (version-descending) and hand them to
the logger; `SelectMigrations`' error (including `ErrMigrationNotFound` on
an empty ledger) is turned into `ErrGetStatus`. -/
def Migrator.Status (_env : Env) (s : MState) : Outcome × MState :=
  match selectMigrations s.ledger with
  | Except.error _ => (Outcome.err GoErr.getStatus, s)
  | Except.ok rows => (Outcome.ok, { s with reported := s.reported ++ rows })

/-- `Migrator.DbVersion`: report the version of the most recent `success`
record, 0 when none exists. -/
def Migrator.DbVersion (_env : Env) (s : MState) : Outcome × MState × Int :=
  match selectLastMigrationByStatus s.ledger StatusSuccess with
  | Except.ok rec => (Outcome.ok, s, rec.version)
  | Except.error e =>
      if e = GoErr.notFound then (Outcome.ok, s, 0)
      else (Outcome.err GoErr.getVersion, s, 0)

/-- `Migrator.Create` version numbering: versions form the contiguous
sequence `v, v+1, ...` (the Source contract of the spec). -/
def contigFrom : Int → List Migration → Bool
  | _, [] => true
  | v, d :: rest => d.version = v && contigFrom (v + 1) rest

def contiguous (l : List Migration) : Bool := contigFrom 1 l

/-- All ledger writes of the environment succeed. -/
def insOk (env : Env) : Prop := ∀ r, env.insertRes r = none

/-- The action result `r` is not a failure. -/
def actOk : Option (Option String) → Bool
  | some (some _) => false
  | _ => true

/-- True when a step on this definition executes an action at all. -/
def actionRuns (go : Option (Option String)) (sql : String) : Bool :=
  go.isSome || sql ≠ ""

/-- Fields of a definition other than the mutable status bookkeeping. -/
def defsCore (d : Migration) :
    Int × String × String × String × Option (Option String) × Option (Option String) :=
  (d.version, d.name, d.up, d.down, d.upGo, d.downGo)

/-- Successful ledger writes appearing in a trace, in order. -/
def recsOf (es : List Event) : List Rec :=
  es.filterMap fun e =>
    match e with
    | Event.ledgerWrite v n stat t => some ⟨v, n, stat, t⟩
    | _ => none

/-- Versions of the in-progress (`process`) writes of a trace: one per
invocation of `upMigration` whose first write succeeded, in invocation
order. -/
def processVersions (es : List Event) : List Int :=
  es.filterMap fun e =>
    match e with
    | Event.ledgerWrite v _ stat _ => if stat = StatusProcess then some v else none
    | _ => none

/-- Events of one fully successful `upMigration` step started at clock `c`. -/
def upStepEvents (d : Migration) (c : Nat) : List Event :=
  [Event.ledgerWrite d.version d.name StatusProcess c]
    ++ (if actionRuns d.upGo d.up then [Event.action true d.version] else [])
    ++ [Event.ledgerWrite d.version d.name StatusSuccess (c + 1)]

/-- Events of `k` consecutive successful `upMigration` steps over the
original definition list `D`, starting at index `i` and clock `c`. -/
def upEventsFrom (D : List Migration) : Nat → Nat → Nat → List Event
  | _, 0, _ => []
  | i, Nat.succ k, c =>
      match D[i]? with
      | some d => upStepEvents d c ++ upEventsFrom D (i + 1) k (c + 2)
      | none => []

/-- Events of an `upMigration` step whose action fails with `e`. -/
def failUpEvents (d : Migration) (c : Nat) : List Event :=
  [Event.ledgerWrite d.version d.name StatusProcess c,
   Event.action true d.version,
   Event.ledgerWrite d.version d.name StatusError (c + 1)]

/-- Ledger contents produced by `k` successful `upMigration` steps from
index `i` at clock `c`: one `success` row per step. -/
def stepsSucc (D : List Migration) : Nat → Nat → Nat → List Rec
  | _, 0, _ => []
  | i, Nat.succ k, c =>
      match D[i]? with
      | some d => ⟨d.version, d.name, StatusSuccess, c + 1⟩ :: stepsSucc D (i + 1) k (c + 2)
      | none => []

/-- Run of the advisory-lock discipline over a trace: every ledger write
and every action must happen while the lock is held, and the lock is never
released when it is not held. -/
def lockCheck : Bool → List Event → Bool
  | _, [] => true
  | _, Event.lockAcquire :: rest => lockCheck true rest
  | held, Event.lockRelease :: rest => held && lockCheck false rest
  | held, Event.ledgerWrite _ _ _ _ :: rest => held && lockCheck held rest
  | held, Event.action _ _ :: rest => held && lockCheck held rest

/-- Weaker discipline: only that a release never happens without the lock
held (pairing of release with a successful acquire). -/
def wellBracketed : Bool → List Event → Bool
  | _, [] => true
  | _, Event.lockAcquire :: rest => wellBracketed true rest
  | held, Event.lockRelease :: rest => held && wellBracketed false rest
  | held, _ :: rest => wellBracketed held rest

/-- Lock state after replaying a trace. -/
def lockStateAfter : Bool → List Event → Bool
  | h, [] => h
  | _, Event.lockAcquire :: rest => lockStateAfter true rest
  | _, Event.lockRelease :: rest => lockStateAfter false rest
  | h, _ :: rest => lockStateAfter h rest

/-- Write or action event (no lock traffic). -/
def isWA : Event → Bool
  | Event.ledgerWrite _ _ _ _ => true
  | Event.action _ _ => true
  | _ => false

/-- Sample no-op-free definitions and a benign environment used by the
concrete witnesses and counterexamples. -/
def mkDef (n : String) (v : Int) (u d : String) : Migration :=
  ⟨n, v, "", 0, u, d, none, none⟩

def env0 : Env := ⟨none, fun _ => none, fun _ => none⟩

def st0 (defs : List Migration) (led : List Rec) : MState :=
  ⟨defs, led, 0, false, [], []⟩

/-- Events of one fully successful `stepMigration` (either direction)
started at clock `c`. -/
def stepEvents (b : Bool) (d : Migration) (c : Nat) : List Event :=
  [Event.ledgerWrite d.version d.name
      (if b then StatusProcess else StatusCancellation) c]
    ++ (if actionRuns (if b then d.upGo else d.downGo)
          (if b then d.up else d.down) then [Event.action b d.version] else [])
    ++ [Event.ledgerWrite d.version d.name
          (if b then StatusSuccess else StatusCancel) (c + 1)]

/-- Events of a `stepMigration` whose action fails with `e` (the failed
row write succeeding). -/
def stepFailEvents (b : Bool) (d : Migration) (c : Nat) : List Event :=
  [Event.ledgerWrite d.version d.name
      (if b then StatusProcess else StatusCancellation) c,
   Event.action b d.version,
   Event.ledgerWrite d.version d.name StatusError (c + 1)]

/-- The ledger holds an `Applied` (`success`) record for version `v`. -/
def hasSuccess (l : List Rec) (v : Int) : Prop :=
  ∃ r ∈ l, r.version = v ∧ r.status = StatusSuccess

/-- Concrete input of C1: one definition, ledger applied up to version 2. -/
def sC1 : MState := st0 [mkDef "m1" 1 "u1" "d1"] [⟨2, "m2", StatusSuccess, 0⟩]

/-- Concrete input of C5: two definitions, only version 1 applied. -/
def sC5 : MState :=
  st0 [mkDef "m1" 1 "u1" "d1", mkDef "m2" 2 "u2" "d2"] [⟨1, "m1", StatusSuccess, 0⟩]

/-- Concrete input of C6: one definition, fully applied. -/
def sC6 : MState := st0 [mkDef "solo" 1 "up" "down"] [⟨1, "solo", StatusSuccess, 0⟩]

/-- Concrete input of C8: one definition, empty ledger. -/
def sC8 : MState := st0 [mkDef "only" 1 "create" "drop"] []

/-- Concrete input of C9: two definitions, ledger applied up to version 3. -/
def sC9 : MState :=
  st0 [mkDef "a" 1 "ua" "da", mkDef "b" 2 "ub" "db"] [⟨3, "x", StatusSuccess, 7⟩]

/-- The target state extends the source state by write/action events only,
preserving everything but the ledger, the clock and the mutable status
fields of the definitions. -/
def extendsWA (s s' : MState) : Prop :=
  s'.migrations.length = s.migrations.length ∧
  s'.migrations.map defsCore = s.migrations.map defsCore ∧
  s'.locked = s.locked ∧ s'.reported = s.reported ∧
  ∃ ws, s'.trace = s.trace ++ ws ∧ ws.all isWA = true

/-- Environment whose SQL execution fails exactly on the payload "u2"
(used to exercise a failing migration action). -/
def envFailU2 : Env :=
  ⟨none, fun _ => none, fun q => if q = "u2" then some "bad" else none⟩

/-- Environment whose migration actions fail on payload "boom" and whose
ledger write of a `Failed` (`error`) row itself fails (used to exercise the
discarded write error). -/
def envC10 : Env :=
  ⟨none,
   fun r => if r.status = StatusError then some "werr" else none,
   fun q => if q = "boom" then some "aerr" else none⟩

/-- Concrete input of C10: one definition whose both actions fail. -/
def sC10 : MState := st0 [mkDef "x" 1 "boom" "boom"] []

/-- Concrete input of C3: two definitions, action of version 2 fails. -/
def sC3 : MState := st0 [mkDef "a" 1 "u1" "d1", mkDef "b" 2 "u2" "d2"] []

/-- The action-execution events of a trace, in order. -/
def actionEvents (es : List Event) : List Event :=
  es.filter fun e =>
    match e with
    | Event.action _ _ => true
    | _ => false

theorem defsCore_statusChange (d : Migration) (st : String) (t : Nat) :
    defsCore { d with status := st, statusChangeTime := t } = defsCore d := rfl

theorem map_defsCore_set (l : List Migration) (i : Nat) (a : Migration)
    (h : ∀ b, l[i]? = some b → defsCore a = defsCore b) :
    (l.set i a).map defsCore = l.map defsCore := by
  induction l generalizing i with
  | nil => rfl
  | cons x xs ih =>
      cases i with
      | zero => simp_all
      | succ n =>
          simp only [List.set, List.map_cons, List.cons.injEq, true_and]
          exact ih n (fun c hc => h c (by simpa using hc))

theorem actionRuns_isSome (env : Env) (go : Option (Option String)) (sql : String) :
    actionRuns go sql = (runAction env go sql).isSome := by
  cases go with
  | some r => simp [actionRuns, runAction]
  | none =>
      by_cases h : sql = "" <;> simp [actionRuns, runAction, h]

theorem stepMigration_insertFail (env : Env) (s : MState) (i : Nat) (b : Bool)
    (d0 : Migration) (e : String) (hg : s.migrations[i]? = some d0)
    (hi : env.insertRes ⟨d0.version, d0.name,
      (if b then StatusProcess else StatusCancellation), s.clock⟩ = some e) :
    stepMigration env s i b =
      (Outcome.err (GoErr.ext e),
        { s with
          migrations := s.migrations.set i
            { d0 with status := (if b then StatusProcess else StatusCancellation),
                      statusChangeTime := s.clock },
          clock := s.clock + 1 }) := by
  simp only [stepMigration, writeRec, recOf, hg, hi]

theorem stepMigration_ok (env : Env) (s : MState) (i : Nat) (b : Bool)
    (d0 : Migration) (hg : s.migrations[i]? = some d0) (hins : insOk env)
    (hact : actOk (runAction env (if b then d0.upGo else d0.downGo)
      (if b then d0.up else d0.down)) = true) :
    stepMigration env s i b =
      (Outcome.ok,
        { s with
          migrations := s.migrations.set i
            { d0 with status := (if b then StatusSuccess else StatusCancel),
                      statusChangeTime := s.clock + 1 },
          clock := s.clock + 2,
          ledger := upsert
            (upsert s.ledger ⟨d0.version, d0.name,
              (if b then StatusProcess else StatusCancellation), s.clock⟩)
            ⟨d0.version, d0.name,
              (if b then StatusSuccess else StatusCancel), s.clock + 1⟩,
          trace := s.trace ++ stepEvents b d0 s.clock }) := by
  have hins' : ∀ r, env.insertRes r = none := hins
  have hrun := actionRuns_isSome env (if b then d0.upGo else d0.downGo)
    (if b then d0.up else d0.down)
  rcases ha : runAction env (if b then d0.upGo else d0.downGo)
      (if b then d0.up else d0.down) with _ | r
  · rw [ha] at hrun
    simp at hrun
    simp [stepMigration, writeRec, finishStep, recOf, hg, hins',
      ha, stepEvents, hrun, List.set_set, List.append_assoc]
  · cases r with
    | none =>
        rw [ha] at hrun
        simp at hrun
        simp [stepMigration, writeRec, finishStep, recOf, hg, hins',
          ha, stepEvents, hrun, List.set_set, List.append_assoc]
    | some e => rw [ha] at hact; simp [actOk] at hact

theorem stepMigration_actionFail (env : Env) (s : MState) (i : Nat) (b : Bool)
    (d0 : Migration) (e : String) (hg : s.migrations[i]? = some d0)
    (hins : insOk env)
    (ha : runAction env (if b then d0.upGo else d0.downGo)
      (if b then d0.up else d0.down) = some (some e)) :
    stepMigration env s i b =
      (Outcome.err (GoErr.ext e),
        { s with
          migrations := s.migrations.set i
            { d0 with status := StatusError, statusChangeTime := s.clock + 1 },
          clock := s.clock + 2,
          ledger := upsert
            (upsert s.ledger ⟨d0.version, d0.name,
              (if b then StatusProcess else StatusCancellation), s.clock⟩)
            ⟨d0.version, d0.name, StatusError, s.clock + 1⟩,
          trace := s.trace ++ stepFailEvents b d0 s.clock }) := by
  have hins' : ∀ r, env.insertRes r = none := hins
  simp [stepMigration, writeRec, recOf, hg, hins', ha, stepFailEvents,
    List.set_set, List.append_assoc]

theorem stepMigration_actionFail_result (env : Env) (s : MState) (i : Nat)
    (b : Bool) (d0 : Migration) (e : String) (hg : s.migrations[i]? = some d0)
    (hi1 : env.insertRes ⟨d0.version, d0.name,
      (if b then StatusProcess else StatusCancellation), s.clock⟩ = none)
    (ha : runAction env (if b then d0.upGo else d0.downGo)
      (if b then d0.up else d0.down) = some (some e)) :
    (stepMigration env s i b).1 = Outcome.err (GoErr.ext e) := by
  simp only [stepMigration, writeRec, recOf, hg, hi1, ha]
theorem extendsWA_rfl (s : MState) : extendsWA s s :=
  ⟨rfl, rfl, rfl, rfl, [], by simp, rfl⟩

theorem stepMigration_none (env : Env) (s : MState) (i : Nat) (b : Bool)
    (hg : s.migrations[i]? = none) :
    stepMigration env s i b = (Outcome.panicked, s) := by
  simp only [stepMigration, hg]

theorem stepEvents_all_isWA (b : Bool) (d : Migration) (c : Nat) :
    (stepEvents b d c).all isWA = true := by
  cases hR : actionRuns (if b then d.upGo else d.downGo) (if b then d.up else d.down) <;>
    simp [stepEvents, hR, isWA]

theorem stepFailEvents_all_isWA (b : Bool) (d : Migration) (c : Nat) :
    (stepFailEvents b d c).all isWA = true := by
  simp [stepFailEvents, isWA]

theorem stepMigration_ok2 (env : Env) (s : MState) (i : Nat) (b : Bool)
    (d0 : Migration) (hg : s.migrations[i]? = some d0)
    (h1 : env.insertRes ⟨d0.version, d0.name,
      (if b then StatusProcess else StatusCancellation), s.clock⟩ = none)
    (h2 : env.insertRes ⟨d0.version, d0.name,
      (if b then StatusSuccess else StatusCancel), s.clock + 1⟩ = none)
    (hact : actOk (runAction env (if b then d0.upGo else d0.downGo)
      (if b then d0.up else d0.down)) = true) :
    stepMigration env s i b =
      (Outcome.ok,
        { s with
          migrations := s.migrations.set i
            { d0 with status := (if b then StatusSuccess else StatusCancel),
                      statusChangeTime := s.clock + 1 },
          clock := s.clock + 2,
          ledger := upsert
            (upsert s.ledger ⟨d0.version, d0.name,
              (if b then StatusProcess else StatusCancellation), s.clock⟩)
            ⟨d0.version, d0.name,
              (if b then StatusSuccess else StatusCancel), s.clock + 1⟩,
          trace := s.trace ++ stepEvents b d0 s.clock }) := by
  have hrun := actionRuns_isSome env (if b then d0.upGo else d0.downGo)
    (if b then d0.up else d0.down)
  rcases ha : runAction env (if b then d0.upGo else d0.downGo)
      (if b then d0.up else d0.down) with _ | r
  · rw [ha] at hrun
    simp at hrun
    simp [stepMigration, writeRec, finishStep, recOf, hg, h1, h2,
      ha, stepEvents, hrun, List.set_set, List.append_assoc]
  · cases r with
    | none =>
        rw [ha] at hrun
        simp at hrun
        simp [stepMigration, writeRec, finishStep, recOf, hg, h1, h2,
          ha, stepEvents, hrun, List.set_set, List.append_assoc]
    | some e => rw [ha] at hact; simp [actOk] at hact

theorem stepMigration_finishFail (env : Env) (s : MState) (i : Nat) (b : Bool)
    (d0 : Migration) (e2 : String) (hg : s.migrations[i]? = some d0)
    (h1 : env.insertRes ⟨d0.version, d0.name,
      (if b then StatusProcess else StatusCancellation), s.clock⟩ = none)
    (h2 : env.insertRes ⟨d0.version, d0.name,
      (if b then StatusSuccess else StatusCancel), s.clock + 1⟩ = some e2)
    (hact : actOk (runAction env (if b then d0.upGo else d0.downGo)
      (if b then d0.up else d0.down)) = true) :
    stepMigration env s i b =
      (Outcome.err (GoErr.ext e2),
        { s with
          migrations := s.migrations.set i
            { d0 with status := (if b then StatusSuccess else StatusCancel),
                      statusChangeTime := s.clock + 1 },
          clock := s.clock + 2,
          ledger := upsert s.ledger ⟨d0.version, d0.name,
              (if b then StatusProcess else StatusCancellation), s.clock⟩,
          trace := s.trace
            ++ [Event.ledgerWrite d0.version d0.name
                  (if b then StatusProcess else StatusCancellation) s.clock]
            ++ (if actionRuns (if b then d0.upGo else d0.downGo)
                  (if b then d0.up else d0.down)
                then [Event.action b d0.version] else []) }) := by
  have hrun := actionRuns_isSome env (if b then d0.upGo else d0.downGo)
    (if b then d0.up else d0.down)
  rcases ha : runAction env (if b then d0.upGo else d0.downGo)
      (if b then d0.up else d0.down) with _ | r
  · rw [ha] at hrun
    simp at hrun
    simp [stepMigration, writeRec, finishStep, recOf, hg, h1, h2,
      ha, hrun, List.set_set, List.append_assoc]
  · cases r with
    | none =>
        rw [ha] at hrun
        simp at hrun
        simp [stepMigration, writeRec, finishStep, recOf, hg, h1, h2,
          ha, hrun, List.set_set, List.append_assoc]
    | some e => rw [ha] at hact; simp [actOk] at hact

theorem stepMigration_actionFail2 (env : Env) (s : MState) (i : Nat) (b : Bool)
    (d0 : Migration) (e : String) (hg : s.migrations[i]? = some d0)
    (h1 : env.insertRes ⟨d0.version, d0.name,
      (if b then StatusProcess else StatusCancellation), s.clock⟩ = none)
    (h2 : env.insertRes ⟨d0.version, d0.name, StatusError, s.clock + 1⟩ = none)
    (ha : runAction env (if b then d0.upGo else d0.downGo)
      (if b then d0.up else d0.down) = some (some e)) :
    stepMigration env s i b =
      (Outcome.err (GoErr.ext e),
        { s with
          migrations := s.migrations.set i
            { d0 with status := StatusError, statusChangeTime := s.clock + 1 },
          clock := s.clock + 2,
          ledger := upsert
            (upsert s.ledger ⟨d0.version, d0.name,
              (if b then StatusProcess else StatusCancellation), s.clock⟩)
            ⟨d0.version, d0.name, StatusError, s.clock + 1⟩,
          trace := s.trace ++ stepFailEvents b d0 s.clock }) := by
  simp [stepMigration, writeRec, recOf, hg, h1, h2, ha, stepFailEvents,
    List.set_set, List.append_assoc]

theorem stepMigration_actionFailBoth (env : Env) (s : MState) (i : Nat) (b : Bool)
    (d0 : Migration) (e e2 : String) (hg : s.migrations[i]? = some d0)
    (h1 : env.insertRes ⟨d0.version, d0.name,
      (if b then StatusProcess else StatusCancellation), s.clock⟩ = none)
    (h2 : env.insertRes ⟨d0.version, d0.name, StatusError, s.clock + 1⟩ = some e2)
    (ha : runAction env (if b then d0.upGo else d0.downGo)
      (if b then d0.up else d0.down) = some (some e)) :
    stepMigration env s i b =
      (Outcome.err (GoErr.ext e),
        { s with
          migrations := s.migrations.set i
            { d0 with status := StatusError, statusChangeTime := s.clock + 1 },
          clock := s.clock + 2,
          ledger := upsert s.ledger ⟨d0.version, d0.name,
              (if b then StatusProcess else StatusCancellation), s.clock⟩,
          trace := s.trace
            ++ [Event.ledgerWrite d0.version d0.name
                  (if b then StatusProcess else StatusCancellation) s.clock,
                Event.action b d0.version] }) := by
  simp [stepMigration, writeRec, recOf, hg, h1, h2, ha,
    List.set_set, List.append_assoc]

theorem stepMigration_extendsWA (env : Env) (s : MState) (i : Nat) (b : Bool) :
    extendsWA s (stepMigration env s i b).2 := by
  have hmap : ∀ (d0 : Migration), s.migrations[i]? = some d0 →
      ∀ (st' : String) (t : Nat),
      (s.migrations.set i { d0 with status := st', statusChangeTime := t }).map defsCore
        = s.migrations.map defsCore := by
    intro d0 hg st' t
    exact map_defsCore_set _ _ _ (fun c hc => by rw [hg] at hc; cases hc; rfl)
  rcases hg : s.migrations[i]? with _ | d0
  · rw [stepMigration_none env s i b hg]
    exact extendsWA_rfl s
  · rcases h1 : env.insertRes ⟨d0.version, d0.name,
        (if b then StatusProcess else StatusCancellation), s.clock⟩ with _ | e1
    swap
    · rw [stepMigration_insertFail env s i b d0 e1 hg h1]
      exact ⟨by simp, hmap d0 hg _ _, rfl, rfl, [], by simp, rfl⟩
    · have hAct : ∀ r, runAction env (if b then d0.upGo else d0.downGo)
          (if b then d0.up else d0.down) = r → extendsWA s (stepMigration env s i b).2 := by
        intro r ha
        match r, ha with
        | some (some e), ha =>
            rcases h2 : env.insertRes ⟨d0.version, d0.name, StatusError, s.clock + 1⟩ with _ | e2
            · rw [stepMigration_actionFail2 env s i b d0 e hg h1 h2 ha]
              exact ⟨by simp, hmap d0 hg _ _, rfl, rfl, stepFailEvents b d0 s.clock,
                rfl, stepFailEvents_all_isWA b d0 s.clock⟩
            · rw [stepMigration_actionFailBoth env s i b d0 e e2 hg h1 h2 ha]
              exact ⟨by simp, hmap d0 hg _ _, rfl, rfl, _, rfl, by simp [isWA]⟩
        | some none, ha =>
            have hact : actOk (runAction env (if b then d0.upGo else d0.downGo)
                (if b then d0.up else d0.down)) = true := by rw [ha]; rfl
            rcases h2 : env.insertRes ⟨d0.version, d0.name,
                (if b then StatusSuccess else StatusCancel), s.clock + 1⟩ with _ | e2
            · rw [stepMigration_ok2 env s i b d0 hg h1 h2 hact]
              exact ⟨by simp, hmap d0 hg _ _, rfl, rfl, stepEvents b d0 s.clock,
                rfl, stepEvents_all_isWA b d0 s.clock⟩
            · rw [stepMigration_finishFail env s i b d0 e2 hg h1 h2 hact]
              refine ⟨by simp, hmap d0 hg _ _, rfl, rfl, _, by rw [List.append_assoc], ?_⟩
              cases hR : actionRuns (if b then d0.upGo else d0.downGo)
                  (if b then d0.up else d0.down) <;> simp [isWA]
        | none, ha =>
            have hact : actOk (runAction env (if b then d0.upGo else d0.downGo)
                (if b then d0.up else d0.down)) = true := by rw [ha]; rfl
            rcases h2 : env.insertRes ⟨d0.version, d0.name,
                (if b then StatusSuccess else StatusCancel), s.clock + 1⟩ with _ | e2
            · rw [stepMigration_ok2 env s i b d0 hg h1 h2 hact]
              exact ⟨by simp, hmap d0 hg _ _, rfl, rfl, stepEvents b d0 s.clock,
                rfl, stepEvents_all_isWA b d0 s.clock⟩
            · rw [stepMigration_finishFail env s i b d0 e2 hg h1 h2 hact]
              refine ⟨by simp, hmap d0 hg _ _, rfl, rfl, _, by rw [List.append_assoc], ?_⟩
              cases hR : actionRuns (if b then d0.upGo else d0.downGo)
                  (if b then d0.up else d0.down) <;> simp [isWA]
      exact hAct _ rfl
theorem extendsWA_trans {s t u : MState} (h1 : extendsWA s t)
    (h2 : extendsWA t u) : extendsWA s u := by
  obtain ⟨a1, b1, c1, d1, w1, e1, f1⟩ := h1
  obtain ⟨a2, b2, c2, d2, w2, e2, f2⟩ := h2
  refine ⟨a2.trans a1, b2.trans b1, c2.trans c1, d2.trans d1, w1 ++ w2, ?_, ?_⟩
  · rw [e2, e1, List.append_assoc]
  · simp_all

theorem upFrom_extendsWA (env : Env) :
    ∀ (k : Nat) (s : MState) (i : Nat), extendsWA s (upFrom env s i k).2
  | 0, s, _ => extendsWA_rfl s
  | Nat.succ k, s, i => by
      have hstep := stepMigration_extendsWA env s i true
      unfold upFrom upMigration
      rcases hs : stepMigration env s i true with ⟨o, s'⟩
      rw [hs] at hstep
      cases o with
      | ok => exact extendsWA_trans hstep (upFrom_extendsWA env k s' (i + 1))
      | err e => exact hstep
      | panicked => exact hstep

theorem upLoopEntry_extendsWA (env : Env) (s : MState) (start : Int) :
    extendsWA s (upLoopEntry env s start).2 := by
  unfold upLoopEntry
  split
  · exact extendsWA_rfl s
  · exact upFrom_extendsWA env _ s _

theorem upBody_extendsWA (env : Env) (s : MState) :
    extendsWA s (upBody env s).2 := by
  unfold upBody
  rcases selectLastMigrationByStatus s.ledger StatusSuccess with e | rec
  · simp only []
    split
    · exact upLoopEntry_extendsWA env s 0
    · exact extendsWA_rfl s
  · simp only []
    split
    · exact extendsWA_rfl s
    · exact upLoopEntry_extendsWA env s rec.version

theorem downBody_extendsWA (env : Env) (s : MState) :
    extendsWA s (downBody env s).2 := by
  unfold downBody
  rcases selectLastMigrationByStatus s.ledger StatusSuccess with e | rec
  · exact extendsWA_rfl s
  · simp only []
    split
    · exact extendsWA_rfl s
    · rcases goIndex s.migrations (rec.version - 1) with _ | j
      · exact extendsWA_rfl s
      · simp only [downMigration]
        have hstep := stepMigration_extendsWA env s j false
        rcases hs : stepMigration env s j false with ⟨o, s'⟩
        rw [hs] at hstep
        cases o <;> exact hstep

theorem redoUp_extendsWA (env : Env) (s : MState) (v : Int) :
    extendsWA s (redoUp env s v).2 := by
  unfold redoUp
  rcases goIndex s.migrations v with _ | j
  · exact extendsWA_rfl s
  · simp only [upMigration]
    have hstep := stepMigration_extendsWA env s j true
    rcases hs : stepMigration env s j true with ⟨o, s'⟩
    rw [hs] at hstep
    cases o <;> exact hstep
theorem lockCheck_true_WA (es : List Event) :
    ∀ ws, ws.all isWA = true → lockCheck true (ws ++ es) = lockCheck true es
  | [], _ => rfl
  | w :: ws', h => by
      cases w with
      | lockAcquire => simp [isWA] at h
      | lockRelease => simp [isWA] at h
      | ledgerWrite v n st t =>
          simp only [List.all_cons, Bool.and_eq_true] at h
          simpa [lockCheck] using lockCheck_true_WA es ws' h.2
      | action b v =>
          simp only [List.all_cons, Bool.and_eq_true] at h
          simpa [lockCheck] using lockCheck_true_WA es ws' h.2

theorem lockStateAfter_WA (h0 : Bool) (es : List Event) :
    ∀ ws, ws.all isWA = true → lockStateAfter h0 (ws ++ es) = lockStateAfter h0 es
  | [], _ => rfl
  | w :: ws', h => by
      cases w with
      | lockAcquire => simp [isWA] at h
      | lockRelease => simp [isWA] at h
      | ledgerWrite v n st t =>
          simp only [List.all_cons, Bool.and_eq_true] at h
          simpa [lockStateAfter] using lockStateAfter_WA h0 es ws' h.2
      | action b v =>
          simp only [List.all_cons, Bool.and_eq_true] at h
          simpa [lockStateAfter] using lockStateAfter_WA h0 es ws' h.2

theorem wellBracketed_WA (h0 : Bool) (es : List Event) :
    ∀ ws, ws.all isWA = true → wellBracketed h0 (ws ++ es) = wellBracketed h0 es
  | [], _ => rfl
  | w :: ws', h => by
      cases w with
      | lockAcquire => simp [isWA] at h
      | lockRelease => simp [isWA] at h
      | ledgerWrite v n st t =>
          simp only [List.all_cons, Bool.and_eq_true] at h
          simpa [wellBracketed] using wellBracketed_WA h0 es ws' h.2
      | action b v =>
          simp only [List.all_cons, Bool.and_eq_true] at h
          simpa [wellBracketed] using wellBracketed_WA h0 es ws' h.2

theorem wellBracketed_nil (h0 : Bool) : wellBracketed h0 [] = true := rfl

theorem Up_lockFail (env : Env) (s : MState) (e : String)
    (h : env.lockErr = some e) :
    Migrator.Up env s = (Outcome.err (GoErr.ext e), s) := by
  simp only [Migrator.Up, h]

theorem Down_lockFail (env : Env) (s : MState) (e : String)
    (h : env.lockErr = some e) :
    Migrator.Down env s = (Outcome.err (GoErr.ext e), s) := by
  simp only [Migrator.Down, h]

theorem Up_locked (env : Env) (s : MState) (h : env.lockErr = none) :
    Migrator.Up env s =
      ((upBody env (lockAcquired s)).1, unlocked (upBody env (lockAcquired s)).2) := by
  simp only [Migrator.Up, h]

theorem Down_locked (env : Env) (s : MState) (h : env.lockErr = none) :
    Migrator.Down env s =
      ((downBody env (lockAcquired s)).1, unlocked (downBody env (lockAcquired s)).2) := by
  simp only [Migrator.Down, h]

theorem Up_trace (env : Env) (s : MState) (h : env.lockErr = none) :
    ∃ ws, ws.all isWA = true ∧
      ((Migrator.Up env s).2).trace =
        s.trace ++ [Event.lockAcquire] ++ ws ++ [Event.lockRelease] ∧
      ((Migrator.Up env s).2).locked = false := by
  obtain ⟨-, -, -, -, ws, htr, hwa⟩ := upBody_extendsWA env (lockAcquired s)
  refine ⟨ws, hwa, ?_, ?_⟩
  · rw [Up_locked env s h]
    simp only [unlocked, lockAcquired] at htr ⊢
    rw [htr]
  · simp [Up_locked env s h, unlocked]

theorem Down_trace (env : Env) (s : MState) (h : env.lockErr = none) :
    ∃ ws, ws.all isWA = true ∧
      ((Migrator.Down env s).2).trace =
        s.trace ++ [Event.lockAcquire] ++ ws ++ [Event.lockRelease] ∧
      ((Migrator.Down env s).2).locked = false := by
  obtain ⟨-, -, -, -, ws, htr, hwa⟩ := downBody_extendsWA env (lockAcquired s)
  refine ⟨ws, hwa, ?_, ?_⟩
  · rw [Down_locked env s h]
    simp only [unlocked, lockAcquired] at htr ⊢
    rw [htr]
  · simp [Down_locked env s h, unlocked]

theorem redo_extends_down (env : Env) (s : MState) :
    extendsWA (Migrator.Down env s).2 (Migrator.Redo env s).2 := by
  unfold Migrator.Redo
  rcases hd : Migrator.Down env s with ⟨o, s1⟩
  cases o with
  | ok =>
      simp only []
      rcases selectLastMigrationByStatus s1.ledger StatusSuccess with e | rec
      · simp only []
        split
        · exact redoUp_extendsWA env s1 0
        · exact extendsWA_rfl s1
      · simp only []
        split
        · exact extendsWA_rfl s1
        · exact redoUp_extendsWA env s1 rec.version
  | err e => exact extendsWA_rfl s1
  | panicked => exact extendsWA_rfl s1
theorem lockCheck_shape (ws tail : List Event) (hwa : ws.all isWA = true) :
    lockCheck false ([Event.lockAcquire] ++ ws ++ ([Event.lockRelease] ++ tail))
      = lockCheck false tail := by
  rw [List.append_assoc]
  show lockCheck true (ws ++ ([Event.lockRelease] ++ tail)) = lockCheck false tail
  rw [lockCheck_true_WA _ ws hwa]
  show (true && lockCheck false tail) = lockCheck false tail
  simp

theorem lockStateAfter_shape (ws tail : List Event) (hwa : ws.all isWA = true) :
    lockStateAfter false ([Event.lockAcquire] ++ ws ++ ([Event.lockRelease] ++ tail))
      = lockStateAfter false tail := by
  rw [List.append_assoc]
  show lockStateAfter true (ws ++ ([Event.lockRelease] ++ tail)) = lockStateAfter false tail
  rw [lockStateAfter_WA true _ ws hwa]
  rfl

theorem wellBracketed_shape (ws tail : List Event) (hwa : ws.all isWA = true) :
    wellBracketed false ([Event.lockAcquire] ++ ws ++ ([Event.lockRelease] ++ tail))
      = wellBracketed false tail := by
  rw [List.append_assoc]
  show wellBracketed true (ws ++ ([Event.lockRelease] ++ tail)) = wellBracketed false tail
  rw [wellBracketed_WA true _ ws hwa]
  show (true && wellBracketed false tail) = wellBracketed false tail
  simp

/-- C6 (amended): Up() and Down() acquire the exclusive lock once before
any ledger write or action, hold it for the whole invocation (every
write/action event happens with the lock held), and release it on every
exit path; and in every operation, including Redo(), a release is only
ever performed while the lock is held (never without a successful
acquire).  The original claim fails for Redo(), whose re-apply phase runs
after the lock has been released (see the counterexample). -/
theorem c6_lock_amended (env : Env) (s : MState) (h0 : s.trace = []) :
    lockCheck false ((Migrator.Up env s).2).trace = true ∧
    lockStateAfter false ((Migrator.Up env s).2).trace = false ∧
    lockCheck false ((Migrator.Down env s).2).trace = true ∧
    lockStateAfter false ((Migrator.Down env s).2).trace = false ∧
    wellBracketed false ((Migrator.Redo env s).2).trace = true := by
  cases hl : env.lockErr with
  | some e =>
      have hr : Migrator.Redo env s = (Outcome.err (GoErr.ext e), s) := by
        unfold Migrator.Redo
        rw [Down_lockFail env s e hl]
      rw [Up_lockFail env s e hl, Down_lockFail env s e hl, hr]
      simp [h0, lockCheck, lockStateAfter, wellBracketed]
  | none =>
      obtain ⟨ws, hwa, htr, -⟩ := Up_trace env s hl
      obtain ⟨ws2, hwa2, htr2, -⟩ := Down_trace env s hl
      obtain ⟨-, -, -, -, ws3, htr3, hwa3⟩ := redo_extends_down env s
      rw [htr, htr2, h0] at *
      rw [htr3, htr2, h0]
      simp only [List.nil_append, List.append_assoc]
      refine ⟨?_, ?_, ?_, ?_, ?_⟩
      · have := lockCheck_shape ws [] hwa
        simpa using this
      · have := lockStateAfter_shape ws [] hwa
        simpa using this
      · have := lockCheck_shape ws2 [] hwa2
        simpa using this
      · have := lockStateAfter_shape ws2 [] hwa2
        simpa using this
      · have h1 := wellBracketed_shape ws2 ws3 hwa2
        have h2 : wellBracketed false ws3 = true := by
          have := wellBracketed_WA false [] ws3 hwa3
          simpa using this
        simp only [List.append_assoc] at h1
        rw [h1, h2]

/-- C6 witness: the amended lock theorem instantiated on the empty state. -/
theorem c6_witness :
    lockCheck false ((Migrator.Up env0 (st0 [] [])).2).trace = true ∧
    lockStateAfter false ((Migrator.Up env0 (st0 [] [])).2).trace = false ∧
    lockCheck false ((Migrator.Down env0 (st0 [] [])).2).trace = true ∧
    lockStateAfter false ((Migrator.Down env0 (st0 [] [])).2).trace = false ∧
    wellBracketed false ((Migrator.Redo env0 (st0 [] [])).2).trace = true :=
  c6_lock_amended env0 (st0 [] []) rfl

/-- C6 counterexample: in Redo() on a fully-applied one-migration state,
the re-apply phase (a ledger write, the up action and another write)
happens after the lock has been released, so the claim that the lock is
held for the entire operation and no action runs without it is false. -/
theorem c6_counterexample :
    (Migrator.Redo env0 sC6).2.trace =
      [Event.lockAcquire,
       Event.ledgerWrite 1 "solo" StatusCancellation 0,
       Event.action false 1,
       Event.ledgerWrite 1 "solo" StatusCancel 1,
       Event.lockRelease,
       Event.ledgerWrite 1 "solo" StatusProcess 2,
       Event.action true 1,
       Event.ledgerWrite 1 "solo" StatusSuccess 3] ∧
    lockCheck false ((Migrator.Redo env0 sC6).2).trace = false := by decide

/-- C8 counterexample: a successful Up() mutates the in-memory definition
list (the status and statusChangeTime fields are set in place), so the
claim that every field of every definition is unchanged is false. -/
theorem c8_counterexample :
    (Migrator.Up env0 sC8).1 = Outcome.ok ∧
    (Migrator.Up env0 sC8).2.migrations ≠ sC8.migrations := by decide

/-- C8 (amended): for every environment and state, no engine operation
ever changes the version, name, up/down payloads or Go callbacks of any
in-memory definition, nor the list's length or order; only the status and
statusChangeTime bookkeeping fields are mutated (by Up/Down/Redo), and
Status()/DbVersion() leave the definitions entirely untouched. -/
theorem c8_defs_amended (env : Env) (s : MState) :
    ((Migrator.Up env s).2).migrations.map defsCore = s.migrations.map defsCore ∧
    ((Migrator.Down env s).2).migrations.map defsCore = s.migrations.map defsCore ∧
    ((Migrator.Redo env s).2).migrations.map defsCore = s.migrations.map defsCore ∧
    ((Migrator.Status env s).2).migrations = s.migrations ∧
    ((Migrator.DbVersion env s).2.1).migrations = s.migrations := by
  have hup : ((Migrator.Up env s).2).migrations.map defsCore
      = s.migrations.map defsCore := by
    cases hl : env.lockErr with
    | some e => rw [Up_lockFail env s e hl]
    | none =>
        obtain ⟨-, hmap, -, -, -⟩ := upBody_extendsWA env (lockAcquired s)
        rw [Up_locked env s hl]
        exact hmap
  have hdown : ((Migrator.Down env s).2).migrations.map defsCore
      = s.migrations.map defsCore := by
    cases hl : env.lockErr with
    | some e => rw [Down_lockFail env s e hl]
    | none =>
        obtain ⟨-, hmap, -, -, -⟩ := downBody_extendsWA env (lockAcquired s)
        rw [Down_locked env s hl]
        exact hmap
  refine ⟨hup, hdown, ?_, ?_, ?_⟩
  · obtain ⟨-, hmap, -, -, -⟩ := redo_extends_down env s
    rw [hmap, hdown]
  · unfold Migrator.Status
    split <;> rfl
  · unfold Migrator.DbVersion
    split
    · rfl
    · split <;> rfl

/-- C7 counterexample: on an empty ledger, Status() returns ErrGetStatus
(the store's NotFound is converted into an error), not a "no migrations"
report as the claim states. -/
theorem c7_counterexample :
    Migrator.Status env0 (st0 [] []) = (Outcome.err GoErr.getStatus, st0 [] []) := by
  decide

/-- C7 (amended): Status() is read-only — it never writes to the ledger,
never emits events and never touches the definitions — and on a non-empty
ledger it succeeds and reports exactly the persisted records in
version-descending order; but on an empty ledger it returns ErrGetStatus
instead of reporting "no migrations". -/
theorem c7_status_amended (env : Env) (s : MState) :
    (s.ledger = [] → Migrator.Status env s = (Outcome.err GoErr.getStatus, s)) ∧
    (s.ledger ≠ [] →
      (Migrator.Status env s).1 = Outcome.ok ∧
      (Migrator.Status env s).2 =
        { s with reported := s.reported ++ List.insertionSort versionGE s.ledger } ∧
      (List.insertionSort versionGE s.ledger).Perm s.ledger ∧
      (List.insertionSort versionGE s.ledger).Sorted versionGE) ∧
    ((Migrator.Status env s).2).ledger = s.ledger ∧
    ((Migrator.Status env s).2).trace = s.trace ∧
    ((Migrator.Status env s).2).migrations = s.migrations := by
  refine ⟨?_, ?_, ?_⟩
  · intro he
    simp [Migrator.Status, selectMigrations, he]
  · intro hne
    have hperm := List.perm_insertionSort versionGE s.ledger
    have hnil : List.insertionSort versionGE s.ledger ≠ [] := by
      intro h
      rw [h] at hperm
      exact hne hperm.symm.eq_nil
    have hnonempty : (List.insertionSort versionGE s.ledger).isEmpty = false := by
      rcases hcase : List.insertionSort versionGE s.ledger with _ | ⟨a, l⟩
      · exact absurd hcase hnil
      · rfl
    refine ⟨?_, ?_, hperm, List.sorted_insertionSort versionGE s.ledger⟩
    · simp [Migrator.Status, selectMigrations, hnonempty]
    · simp [Migrator.Status, selectMigrations, hnonempty]
  · unfold Migrator.Status
    split <;> exact ⟨rfl, rfl, rfl⟩

/-- C7 witness: the amended Status theorem instantiated on a one-record
ledger. -/
theorem c7_witness :
    (Migrator.Status env0 (st0 [] [⟨1, "r", StatusSuccess, 0⟩])).1 = Outcome.ok :=
  ((c7_status_amended env0 (st0 [] [⟨1, "r", StatusSuccess, 0⟩])).2.1 (by decide)).1

/-- C10: in upMigration and downMigration, when the migration action fails
its own error is returned regardless of the outcome of the subsequent
write of the Failed (`error`) row — the oracle for that write is left
completely unconstrained, so its error is discarded and never surfaced. -/
theorem c10_error_priority (env : Env) (s : MState) (i : Nat) (d0 : Migration)
    (e : String) (hg : s.migrations[i]? = some d0) :
    (env.insertRes ⟨d0.version, d0.name, StatusProcess, s.clock⟩ = none →
      runAction env d0.upGo d0.up = some (some e) →
      (upMigration env s i).1 = Outcome.err (GoErr.ext e)) ∧
    (env.insertRes ⟨d0.version, d0.name, StatusCancellation, s.clock⟩ = none →
      runAction env d0.downGo d0.down = some (some e) →
      (downMigration env s i).1 = Outcome.err (GoErr.ext e)) := by
  constructor
  · intro h1 ha
    exact stepMigration_actionFail_result env s i true d0 e hg (by simpa using h1)
      (by simpa using ha)
  · intro h1 ha
    exact stepMigration_actionFail_result env s i false d0 e hg (by simpa using h1)
      (by simpa using ha)

/-- C10 witness: with an environment whose Failed-row write does fail, the
step still returns the action's error. -/
theorem c10_witness :
    envC10.insertRes ⟨1, "x", StatusError, 1⟩ = some "werr" ∧
    (upMigration envC10 sC10 0).1 = Outcome.err (GoErr.ext "aerr") ∧
    (downMigration envC10 sC10 0).1 = Outcome.err (GoErr.ext "aerr") :=
  ⟨by decide,
   (c10_error_priority envC10 sC10 0 (mkDef "x" 1 "boom" "boom") "aerr" rfl).1
     (by decide) (by decide),
   (c10_error_priority envC10 sC10 0 (mkDef "x" 1 "boom" "boom") "aerr" rfl).2
     (by decide) (by decide)⟩

/-- C1 evaluation at the failing input: with one known definition and a
ledger whose last Applied version is 2 = N + 1, the spec requires both
Up() and Down() to fail with ErrUnexpectedMigrationVersion; instead the
off-by-one guard (`lastApplied - 1 > N`) lets both through — Up() silently
returns success without writing anything and Down() panics with an
out-of-range index. -/
theorem c1_code_eval :
    (Migrator.Up env0 sC1).1 = Outcome.ok ∧
    (Migrator.Up env0 sC1).1 ≠ Outcome.err GoErr.unexpectedVersion ∧
    (Migrator.Up env0 sC1).2.ledger = sC1.ledger ∧
    (Migrator.Down env0 sC1).1 = Outcome.panicked ∧
    (Migrator.Down env0 sC1).1 ≠ Outcome.err GoErr.unexpectedVersion := by
  decide

/-- C5 counterexample: with two definitions and only version 1 applied,
Redo() re-applies just version 1 (final ledger has a single record), while
Down() followed by Up() applies versions 1 and 2 (two records); both
succeed, so Redo() is not equivalent to Down();Up(). -/
theorem c5_counterexample :
    (Migrator.Redo env0 sC5).1 = Outcome.ok ∧
    (Migrator.Up env0 (Migrator.Down env0 sC5).2).1 = Outcome.ok ∧
    (Migrator.Redo env0 sC5).2.ledger.length = 1 ∧
    (Migrator.Up env0 (Migrator.Down env0 sC5).2).2.ledger.length = 2 := by
  decide

/-- C9 counterexample: with two definitions and a ledger whose last
Applied version is 3 = N + 1, Down()'s consistency guard passes
(3 - 1 > 2 is false) yet the index lastApplied - 1 = 2 is out of range, so
the definition lookup panics. -/
theorem c9_counterexample :
    lastByStatus sC9.ledger StatusSuccess = some ⟨3, "x", StatusSuccess, 7⟩ ∧
    ¬((3 : Int) - 1 > (sC9.migrations.length : Int)) ∧
    goIndex sC9.migrations (3 - 1) = none ∧
    (Migrator.Down env0 sC9).1 = Outcome.panicked := by
  decide
theorem defsCore_fields {a b : Migration} (h : defsCore a = defsCore b) :
    a.version = b.version ∧ a.name = b.name ∧ a.up = b.up ∧ a.down = b.down ∧
    a.upGo = b.upGo ∧ a.downGo = b.downGo := by
  simp only [defsCore, Prod.mk.injEq] at h
  exact h

theorem contig_get :
    ∀ (l : List Migration) (v : Int) (j : Nat) (d : Migration),
      contigFrom v l = true → l[j]? = some d → d.version = v + j
  | [], _, j, _, _, hj => by simp at hj
  | x :: xs, v, 0, d, hc, hj => by
      simp only [contigFrom, Bool.and_eq_true, decide_eq_true_eq] at hc
      simp only [List.getElem?_cons_zero, Option.some.injEq] at hj
      rw [← hj]
      simpa using hc.1
  | x :: xs, v, Nat.succ j, d, hc, hj => by
      simp only [contigFrom, Bool.and_eq_true] at hc
      simp only [List.getElem?_cons_succ] at hj
      have := contig_get xs (v + 1) j d hc.2 hj
      rw [this]
      push_cast
      ring

theorem stepEvents_congr (b : Bool) (c : Nat) {d1 d2 : Migration}
    (h : defsCore d1 = defsCore d2) : stepEvents b d1 c = stepEvents b d2 c := by
  obtain ⟨hv, hn, hu, hd, hug, hdg⟩ := defsCore_fields h
  cases b <;> simp [stepEvents, actionRuns, hv, hn, hu, hd, hug, hdg]

theorem upStepEvents_eq (d : Migration) (c : Nat) :
    upStepEvents d c = stepEvents true d c := rfl

theorem recsOf_append (l1 l2 : List Event) :
    recsOf (l1 ++ l2) = recsOf l1 ++ recsOf l2 := by
  simp [recsOf, List.filterMap_append]

theorem recsOf_stepEvents (b : Bool) (d : Migration) (c : Nat) :
    recsOf (stepEvents b d c) =
      [⟨d.version, d.name, (if b then StatusProcess else StatusCancellation), c⟩,
       ⟨d.version, d.name, (if b then StatusSuccess else StatusCancel), c + 1⟩] := by
  cases hR : actionRuns (if b then d.upGo else d.downGo) (if b then d.up else d.down) <;>
    simp [stepEvents, recsOf, hR]

theorem getElem?_defsCore (l1 l2 : List Migration)
    (h : l1.map defsCore = l2.map defsCore) (j : Nat) :
    l1[j]?.map defsCore = l2[j]?.map defsCore := by
  rw [← List.getElem?_map, ← List.getElem?_map, h]
theorem upFrom_succ (env : Env) (s : MState) (i k : Nat) :
    upFrom env s i (k + 1) =
      (match upMigration env s i with
        | (Outcome.ok, s') => upFrom env s' (i + 1) k
        | (Outcome.err _, s') => (Outcome.err GoErr.migrationUp, s')
        | (Outcome.panicked, s') => (Outcome.panicked, s')) := rfl

theorem upFrom_split (env : Env) :
    ∀ (k1 k2 : Nat) (s : MState) (i : Nat),
      upFrom env s i (k1 + k2) =
        (match upFrom env s i k1 with
          | (Outcome.ok, s') => upFrom env s' (i + k1) k2
          | r => r)
  | 0, k2, s, i => by simp [upFrom]
  | k1 + 1, k2, s, i => by
      have hk : k1 + 1 + k2 = (k1 + k2) + 1 := by omega
      rw [hk, upFrom_succ, upFrom_succ]
      rcases hs : upMigration env s i with ⟨o, s'⟩
      cases o with
      | ok =>
          simp only []
          rw [upFrom_split env k1 k2 s' (i + 1)]
          have hi : i + 1 + k1 = i + (k1 + 1) := by omega
          rw [hi]
      | err e => simp only []
      | panicked => simp only []
theorem upMigration_ok (env : Env) (s : MState) (i : Nat) (d0 : Migration)
    (hg : s.migrations[i]? = some d0) (hins : insOk env)
    (hact : actOk (runAction env d0.upGo d0.up) = true) :
    upMigration env s i =
      (Outcome.ok,
        { s with
          migrations := s.migrations.set i
            { d0 with status := StatusSuccess, statusChangeTime := s.clock + 1 },
          clock := s.clock + 2,
          ledger := upsert
            (upsert s.ledger ⟨d0.version, d0.name, StatusProcess, s.clock⟩)
            ⟨d0.version, d0.name, StatusSuccess, s.clock + 1⟩,
          trace := s.trace ++ stepEvents true d0 s.clock }) := by
  have h := stepMigration_ok env s i true d0 hg hins (by simpa using hact)
  simpa using h

theorem downMigration_ok (env : Env) (s : MState) (i : Nat) (d0 : Migration)
    (hg : s.migrations[i]? = some d0) (hins : insOk env)
    (hact : actOk (runAction env d0.downGo d0.down) = true) :
    downMigration env s i =
      (Outcome.ok,
        { s with
          migrations := s.migrations.set i
            { d0 with status := StatusCancel, statusChangeTime := s.clock + 1 },
          clock := s.clock + 2,
          ledger := upsert
            (upsert s.ledger ⟨d0.version, d0.name, StatusCancellation, s.clock⟩)
            ⟨d0.version, d0.name, StatusCancel, s.clock + 1⟩,
          trace := s.trace ++ stepEvents false d0 s.clock }) := by
  have h := stepMigration_ok env s i false d0 hg hins (by simpa using hact)
  simpa using h

theorem upMigration_fail (env : Env) (s : MState) (i : Nat) (d0 : Migration)
    (e : String) (hg : s.migrations[i]? = some d0) (hins : insOk env)
    (ha : runAction env d0.upGo d0.up = some (some e)) :
    upMigration env s i =
      (Outcome.err (GoErr.ext e),
        { s with
          migrations := s.migrations.set i
            { d0 with status := StatusError, statusChangeTime := s.clock + 1 },
          clock := s.clock + 2,
          ledger := upsert
            (upsert s.ledger ⟨d0.version, d0.name, StatusProcess, s.clock⟩)
            ⟨d0.version, d0.name, StatusError, s.clock + 1⟩,
          trace := s.trace ++ stepFailEvents true d0 s.clock }) := by
  have h := stepMigration_actionFail env s i true d0 e hg hins (by simpa using ha)
  simpa using h

theorem downMigration_fail (env : Env) (s : MState) (i : Nat) (d0 : Migration)
    (e : String) (hg : s.migrations[i]? = some d0) (hins : insOk env)
    (ha : runAction env d0.downGo d0.down = some (some e)) :
    downMigration env s i =
      (Outcome.err (GoErr.ext e),
        { s with
          migrations := s.migrations.set i
            { d0 with status := StatusError, statusChangeTime := s.clock + 1 },
          clock := s.clock + 2,
          ledger := upsert
            (upsert s.ledger ⟨d0.version, d0.name, StatusCancellation, s.clock⟩)
            ⟨d0.version, d0.name, StatusError, s.clock + 1⟩,
          trace := s.trace ++ stepFailEvents false d0 s.clock }) := by
  have h := stepMigration_actionFail env s i false d0 e hg hins (by simpa using ha)
  simpa using h
theorem upFrom_ok (env : Env) (hins : insOk env) (D : List Migration) :
    ∀ (k : Nat) (s : MState) (i : Nat),
      s.migrations.map defsCore = D.map defsCore →
      i + k ≤ D.length →
      (∀ j d, i ≤ j → j < i + k → D[j]? = some d →
        actOk (runAction env d.upGo d.up) = true) →
      upFrom env s i k = (Outcome.ok, (upFrom env s i k).2) ∧
      (upFrom env s i k).2.trace = s.trace ++ upEventsFrom D i k s.clock ∧
      (upFrom env s i k).2.ledger =
        List.foldl upsert s.ledger (recsOf (upEventsFrom D i k s.clock)) ∧
      (upFrom env s i k).2.clock = s.clock + 2 * k ∧
      (upFrom env s i k).2.locked = s.locked ∧
      (upFrom env s i k).2.reported = s.reported
  | 0, s, i => by
      intro hmap hlen hacts
      simp [upFrom, upEventsFrom, recsOf]
  | k + 1, s, i => by
      intro hmap hlen hacts
      have hiD : i < D.length := by omega
      have hD : ∃ d, D[i]? = some d := by
        rw [List.getElem?_eq_getElem hiD]
        exact ⟨D[i], rfl⟩
      obtain ⟨d, hd⟩ := hD
      have hsome := getElem?_defsCore s.migrations D hmap i
      rw [hd] at hsome
      simp only [Option.map_some'] at hsome
      obtain ⟨d0, hg, hcore⟩ := Option.map_eq_some'.mp hsome
      have hact0 : actOk (runAction env d0.upGo d0.up) = true := by
        obtain ⟨-, -, hu, -, hug, -⟩ := defsCore_fields hcore
        rw [hu, hug]
        exact hacts i d (le_refl i) (by omega) hd
      have hstep := upMigration_ok env s i d0 hg hins hact0
      have hmap1 : (s.migrations.set i
          { d0 with status := StatusSuccess, statusChangeTime := s.clock + 1 }).map defsCore
            = D.map defsCore := by
        rw [map_defsCore_set _ _ _ (fun c hc => by rw [hg] at hc; cases hc; rfl)]
        exact hmap
      rw [upFrom_succ]
      rw [hstep]
      simp only []
      set s1 : MState :=
        { s with
          migrations := s.migrations.set i
            { d0 with status := StatusSuccess, statusChangeTime := s.clock + 1 },
          clock := s.clock + 2,
          ledger := upsert
            (upsert s.ledger ⟨d0.version, d0.name, StatusProcess, s.clock⟩)
            ⟨d0.version, d0.name, StatusSuccess, s.clock + 1⟩,
          trace := s.trace ++ stepEvents true d0 s.clock } with hs1
      have ih := upFrom_ok env hins D k s1 (i + 1)
        (by rw [hs1]; exact hmap1)
        (by omega)
        (fun j dj hj1 hj2 hdj => hacts j dj (by omega) (by omega) hdj)
      obtain ⟨ih1, ihtr, ihled, ihck, ihlk, ihrep⟩ := ih
      have hev : upEventsFrom D i (k + 1) s.clock =
          stepEvents true d s.clock ++ upEventsFrom D (i + 1) k (s.clock + 2) := by
        have hunf : upEventsFrom D i (k + 1) s.clock =
            (match D[i]? with
              | some dd => upStepEvents dd s.clock ++ upEventsFrom D (i + 1) k (s.clock + 2)
              | none => []) := rfl
        rw [hunf]
        simp only [hd, upStepEvents_eq]
      have hevstep : stepEvents true d0 s.clock = stepEvents true d s.clock :=
        stepEvents_congr true s.clock hcore
      have hck1 : s1.clock = s.clock + 2 := by rw [hs1]
      have htr1 : s1.trace = s.trace ++ stepEvents true d0 s.clock := by rw [hs1]
      have hled1 : s1.ledger =
          List.foldl upsert s.ledger (recsOf (stepEvents true d s.clock)) := by
        rw [hs1]
        simp only []
        rw [← hevstep, recsOf_stepEvents]
        simp
      have hlk1 : s1.locked = s.locked := by rw [hs1]
      have hrep1 : s1.reported = s.reported := by rw [hs1]
      refine ⟨ih1, ?_, ?_, ?_, ?_, ?_⟩
      · rw [ihtr, htr1, hck1, hev, hevstep, List.append_assoc]
      · rw [ihled, hled1, hck1, hev, recsOf_append, List.foldl_append]
      · rw [ihck, hck1]
        omega
      · rw [ihlk, hlk1]
      · rw [ihrep, hrep1]
theorem map_id_of_mem {α : Type} (f : α → α) :
    ∀ (l : List α), (∀ x ∈ l, f x = x) → l.map f = l
  | [], _ => rfl
  | x :: xs, h => by
      simp only [List.map_cons, h x (by simp), List.cons.injEq, true_and]
      exact map_id_of_mem f xs (fun y hy => h y (by simp [hy]))

theorem upsert_notMem (L : List Rec) (r : Rec)
    (h : ∀ x ∈ L, x.version ≠ r.version) : upsert L r = L ++ [r] := by
  have hany : (L.any fun x => x.version = r.version ∧ x.name = r.name) = false := by
    rw [List.any_eq_false]
    intro x hx
    simp only [decide_eq_true_eq, not_and]
    intro hv
    exact absurd hv (h x hx)
  simp only [upsert, hany, Bool.false_eq_true, if_false]

theorem upsert_append_key (L : List Rec) (x r : Rec)
    (hv : x.version = r.version) (hn : x.name = r.name)
    (h : ∀ y ∈ L, y.version ≠ r.version) :
    upsert (L ++ [x]) r = L ++ [r] := by
  have hany : ((L ++ [x]).any fun y => y.version = r.version ∧ y.name = r.name) = true := by
    rw [List.any_eq_true]
    exact ⟨x, by simp, by simp [hv, hn]⟩
  have hmapL : (L.map fun y =>
      if y.version = r.version ∧ y.name = r.name then
        { y with status := r.status, time := r.time } else y) = L := by
    apply map_id_of_mem
    intro y hy
    rw [if_neg]
    simp only [not_and]
    intro hv2
    exact absurd hv2 (h y hy)
  have hx : (if x.version = r.version ∧ x.name = r.name then
      { x with status := r.status, time := r.time } else x) = r := by
    rw [if_pos ⟨hv, hn⟩]
    cases x
    cases r
    simp_all
  simp only [upsert, hany, if_true, List.map_append, hmapL, List.map_cons,
    List.map_nil, hx]
theorem ledger_after_upEvents (D : List Migration) (hcontig : contiguous D = true) :
    ∀ (k i c : Nat) (L : List Rec),
      i + k ≤ D.length →
      (∀ x ∈ L, x.version ≤ (i : Int)) →
      List.foldl upsert L (recsOf (upEventsFrom D i k c)) = L ++ stepsSucc D i k c
  | 0, i, c, L, _, _ => by simp [upEventsFrom, recsOf, stepsSucc]
  | k + 1, i, c, L, hlen, hL => by
      have hiD : i < D.length := by omega
      obtain ⟨d, hd⟩ : ∃ d, D[i]? = some d := ⟨D[i], List.getElem?_eq_getElem hiD⟩
      have hv : d.version = (i : Int) + 1 := by
        have := contig_get D 1 i d hcontig hd
        rw [this]
        ring
      have hunfE : upEventsFrom D i (k + 1) c =
          (match D[i]? with
            | some dd => upStepEvents dd c ++ upEventsFrom D (i + 1) k (c + 2)
            | none => []) := rfl
      have hunfS : stepsSucc D i (k + 1) c =
          (match D[i]? with
            | some dd => (⟨dd.version, dd.name, StatusSuccess, c + 1⟩ : Rec)
                :: stepsSucc D (i + 1) k (c + 2)
            | none => []) := rfl
      rw [hunfE, hunfS]
      simp only [hd]
      rw [upStepEvents_eq, recsOf_append, recsOf_stepEvents, List.foldl_append]
      have hproc : upsert L ⟨d.version, d.name, StatusProcess, c⟩ =
          L ++ [⟨d.version, d.name, StatusProcess, c⟩] := by
        apply upsert_notMem
        intro x hx
        have := hL x hx
        simp only [hv]
        omega
      have hsucc : upsert (L ++ [⟨d.version, d.name, StatusProcess, c⟩])
          ⟨d.version, d.name, StatusSuccess, c + 1⟩ =
          L ++ [⟨d.version, d.name, StatusSuccess, c + 1⟩] := by
        apply upsert_append_key
        · rfl
        · rfl
        · intro y hy
          have := hL y hy
          simp only [hv]
          omega
      simp only [List.foldl_cons, List.foldl_nil, if_true, hproc, hsucc]
      have ih := ledger_after_upEvents D hcontig k (i + 1) (c + 2)
        (L ++ [⟨d.version, d.name, StatusSuccess, c + 1⟩])
        (by omega)
        (by
          intro x hx
          rcases List.mem_append.mp hx with hx1 | hx2
          · have := hL x hx1
            push_cast
            omega
          · have hx3 : x = ⟨d.version, d.name, StatusSuccess, c + 1⟩ := by
              simpa using hx2
            rw [hx3]
            simp only [hv]
            push_cast
            omega)
      rw [ih, List.append_assoc]
      simp
theorem hasSuccess_stepsSucc (D : List Migration) :
    ∀ (k i c : Nat) (v : Int),
      i + k ≤ D.length → contiguous D = true →
      (hasSuccess (stepsSucc D i k c) v ↔ ((i : Int) + 1 ≤ v ∧ v ≤ (i : Int) + k))
  | 0, i, c, v, hlen, hc => by
      simp only [stepsSucc, hasSuccess]
      constructor
      · rintro ⟨r, hr, -⟩
        simp at hr
      · intro hv
        push_cast at hv
        omega
  | k + 1, i, c, v, hlen, hc => by
      have hiD : i < D.length := by omega
      obtain ⟨d, hd⟩ : ∃ d, D[i]? = some d := ⟨D[i], List.getElem?_eq_getElem hiD⟩
      have hv : d.version = (i : Int) + 1 := by
        have := contig_get D 1 i d hc hd
        rw [this]; ring
      have hunfS : stepsSucc D i (k + 1) c =
          (⟨d.version, d.name, StatusSuccess, c + 1⟩ : Rec)
            :: stepsSucc D (i + 1) k (c + 2) := by
        have : stepsSucc D i (k + 1) c =
            (match D[i]? with
              | some dd => (⟨dd.version, dd.name, StatusSuccess, c + 1⟩ : Rec)
                  :: stepsSucc D (i + 1) k (c + 2)
              | none => []) := rfl
        rw [this, hd]
      rw [hunfS]
      have ih := hasSuccess_stepsSucc D k (i + 1) (c + 2) v (by omega) hc
      simp only [hasSuccess, List.mem_cons] at ih ⊢
      constructor
      · rintro ⟨r, hr | hr, hrv, hrs⟩
        · rw [hr] at hrv
          simp only at hrv
          rw [hv] at hrv
          push_cast
          omega
        · have := ih.mp ⟨r, hr, hrv, hrs⟩
          push_cast at this ⊢
          omega
      · intro hrange
        push_cast at hrange
        by_cases heq : v = (i : Int) + 1
        · exact ⟨⟨d.version, d.name, StatusSuccess, c + 1⟩, Or.inl rfl,
            by simp [hv, heq], rfl⟩
        · have := ih.mpr (by push_cast; omega)
          obtain ⟨r, hr, hrv, hrs⟩ := this
          exact ⟨r, Or.inr hr, hrv, hrs⟩
theorem lastByStatus_stepsSucc (D : List Migration) (hc : contiguous D = true) :
    ∀ (k i c : Nat), 1 ≤ k → i + k ≤ D.length →
      ∃ nm t, lastByStatus (stepsSucc D i k c) StatusSuccess =
        some ⟨(i : Int) + k, nm, StatusSuccess, t⟩
  | 0, i, c, hk, _ => by omega
  | k + 1, i, c, _, hlen => by
      have hiD : i < D.length := by omega
      obtain ⟨d, hd⟩ : ∃ d, D[i]? = some d := ⟨D[i], List.getElem?_eq_getElem hiD⟩
      have hv : d.version = (i : Int) + 1 := by
        have := contig_get D 1 i d hc hd
        rw [this]; ring
      have hunfS : stepsSucc D i (k + 1) c =
          (⟨d.version, d.name, StatusSuccess, c + 1⟩ : Rec)
            :: stepsSucc D (i + 1) k (c + 2) := by
        have : stepsSucc D i (k + 1) c =
            (match D[i]? with
              | some dd => (⟨dd.version, dd.name, StatusSuccess, c + 1⟩ : Rec)
                  :: stepsSucc D (i + 1) k (c + 2)
              | none => []) := rfl
        rw [this, hd]
      rw [hunfS]
      cases k with
      | zero =>
          refine ⟨d.name, c + 1, ?_⟩
          simp [lastByStatus, stepsSucc, hv]
      | succ k' =>
          obtain ⟨nm, t, ih⟩ := lastByStatus_stepsSucc D hc (k' + 1) (i + 1) (c + 2)
            (by omega) (by omega)
          refine ⟨nm, t, ?_⟩
          have hcond : d.version < ((i + 1 : Nat) : Int) + ((k' + 1 : Nat) : Int) := by
            rw [hv]
            push_cast
            omega
          simp only [lastByStatus, if_pos rfl, ih, if_pos hcond]
          rw [if_true]
          have hcast : ((i + 1 : Nat) : Int) + ((k' + 1 : Nat) : Int)
              = (i : Int) + ((k' + 1 + 1 : Nat) : Int) := by push_cast; ring
          rw [hcast]
theorem processVersions_append (l1 l2 : List Event) :
    processVersions (l1 ++ l2) = processVersions l1 ++ processVersions l2 := by
  simp [processVersions, List.filterMap_append]

theorem processVersions_stepEvents_true (d : Migration) (c : Nat) :
    processVersions (stepEvents true d c) = [d.version] := by
  cases hR : actionRuns (if true then d.upGo else d.downGo)
      (if true then d.up else d.down) <;>
    simp [stepEvents, processVersions, hR, StatusSuccess, StatusProcess]

theorem processVersions_upEventsFrom (D : List Migration) (hc : contiguous D = true) :
    ∀ (k i c : Nat), i + k ≤ D.length →
      processVersions (upEventsFrom D i k c) =
        (List.range k).map (fun j : Nat => (i : Int) + 1 + (j : Int))
  | 0, i, c, _ => by simp [upEventsFrom, processVersions]
  | k + 1, i, c, hlen => by
      have hiD : i < D.length := by omega
      obtain ⟨d, hd⟩ : ∃ d, D[i]? = some d := ⟨D[i], List.getElem?_eq_getElem hiD⟩
      have hv : d.version = (i : Int) + 1 := by
        have := contig_get D 1 i d hc hd
        rw [this]; ring
      have hunfE : upEventsFrom D i (k + 1) c =
          stepEvents true d c ++ upEventsFrom D (i + 1) k (c + 2) := by
        have : upEventsFrom D i (k + 1) c =
            (match D[i]? with
              | some dd => upStepEvents dd c ++ upEventsFrom D (i + 1) k (c + 2)
              | none => []) := rfl
        rw [this]
        simp only [hd, upStepEvents_eq]
      rw [hunfE, processVersions_append, processVersions_stepEvents_true,
        processVersions_upEventsFrom D hc k (i + 1) (c + 2) (by omega), hv,
        List.range_succ_eq_map, List.map_cons, List.map_map, List.singleton_append]
      congr 1
      apply List.map_congr_left
      intro a ha
      simp only [Function.comp_apply]
      push_cast
      ring

theorem lastByStatus_append_single (r : Rec) (st : String) (hne : r.status ≠ st) :
    ∀ (L : List Rec), lastByStatus (L ++ [r]) st = lastByStatus L st
  | [] => by simp [lastByStatus, hne]
  | x :: xs => by
      have ih : lastByStatus (List.append xs [r]) st = lastByStatus xs st :=
        lastByStatus_append_single r st hne xs
      simp only [List.cons_append, lastByStatus]
      rw [ih]
theorem validStatus_success : validStatus StatusSuccess = true := by decide

theorem selectLast_of_lastByStatus (l : List Rec) (rec : Rec)
    (h : lastByStatus l StatusSuccess = some rec) :
    selectLastMigrationByStatus l StatusSuccess = Except.ok rec := by
  simp [selectLastMigrationByStatus, validStatus_success, h]

theorem selectLast_of_none (l : List Rec)
    (h : lastByStatus l StatusSuccess = none) :
    selectLastMigrationByStatus l StatusSuccess = Except.error GoErr.notFound := by
  simp [selectLastMigrationByStatus, validStatus_success, h]

theorem upBody_run (env : Env) (s : MState) (rec : Rec) (V : Nat)
    (hlast : lastByStatus s.ledger StatusSuccess = some rec)
    (hV : rec.version = (V : Int)) (hVN : V ≤ s.migrations.length) :
    upBody env s = upFrom env s V (s.migrations.length - V) := by
  have hsel := selectLast_of_lastByStatus s.ledger rec hlast
  have hguard : ¬(rec.version - 1 > (s.migrations.length : Int)) := by
    rw [hV]
    omega
  have hnn : ¬((rec.version : Int) < 0) := by
    rw [hV]
    omega
  simp only [upBody, hsel, upLoopEntry, hV]
  rw [if_neg (by rw [← hV]; exact hguard), if_neg (by simp at hnn ⊢; try exact hnn)]
  simp [Int.toNat_ofNat]

theorem upBody_notFound (env : Env) (s : MState)
    (hlast : lastByStatus s.ledger StatusSuccess = none) :
    upBody env s = upFrom env s 0 s.migrations.length := by
  have hsel := selectLast_of_none s.ledger hlast
  simp only [upBody, hsel]
  rw [if_true]
  simp [upLoopEntry]
theorem upFrom_zero (env : Env) (s : MState) (i : Nat) :
    upFrom env s i 0 = (Outcome.ok, s) := rfl

theorem up_noop (env : Env) (s2 : MState) (D : List Migration) (c : Nat)
    (hlock : env.lockErr = none) (hcontig : contiguous D = true)
    (hlen : s2.migrations.length = D.length)
    (hled : s2.ledger = stepsSucc D 0 D.length c) :
    Migrator.Up env s2 =
      (Outcome.ok,
        { s2 with
          trace := s2.trace ++ [Event.lockAcquire, Event.lockRelease],
          locked := false }) := by
  rw [Up_locked env s2 hlock]
  have hstate : ∀ t : MState, t = lockAcquired s2 →
      upBody env t = (Outcome.ok, t) := by
    intro t ht
    have htl : t.ledger = stepsSucc D 0 D.length c := by rw [ht]; exact hled
    have htm : t.migrations.length = D.length := by rw [ht]; exact hlen
    cases hN : D.length with
    | zero =>
        have h0 : t.ledger = [] := by rw [htl, hN]; rfl
        have hnone : lastByStatus t.ledger StatusSuccess = none := by
          rw [h0]; rfl
        rw [upBody_notFound env t hnone, htm, hN, upFrom_zero]
    | succ n =>
        obtain ⟨nm, tm, hlast⟩ := lastByStatus_stepsSucc D hcontig (n + 1) 0 c
          (by omega) (by omega)
        have hlast' : lastByStatus t.ledger StatusSuccess =
            some ⟨((n + 1 : Nat) : Int), nm, StatusSuccess, tm⟩ := by
          rw [htl, hN]
          rw [hlast]
          congr 1
          simp
        have := upBody_run env t ⟨((n + 1 : Nat) : Int), nm, StatusSuccess, tm⟩
          (n + 1) hlast' rfl (by omega)
        rw [this, htm, hN]
        simp [upFrom_zero]
  rw [hstate (lockAcquired s2) rfl]
  simp [unlocked, lockAcquired, List.append_assoc]
/-- C2: with a contiguous definition list, a working store and all needed
actions succeeding: (a) from any ledger state whose most recent Applied
record has version V <= N, Up() succeeds and its in-progress ledger writes
(one per applyOne invocation) are exactly for versions V+1, ..., N in
ascending order; (b) against an empty ledger Up() succeeds, the resulting
ledger consists of exactly the Applied (success) records of versions 1..N,
and a second Up() immediately after performs zero ledger writes and zero
actions (its only events are the lock acquire/release). -/
theorem c2_up_reconciliation (env : Env) (s : MState) (D : List Migration)
    (hins : insOk env) (hlock : env.lockErr = none)
    (hcontig : contiguous D = true) (hD : s.migrations = D) :
    (∀ (rec : Rec) (V : Nat),
      lastByStatus s.ledger StatusSuccess = some rec →
      rec.version = (V : Int) → V ≤ D.length →
      (∀ (j : Nat) (d : Migration), V ≤ j → D[j]? = some d →
        actOk (runAction env d.upGo d.up) = true) →
      (Migrator.Up env s).1 = Outcome.ok ∧
      processVersions ((Migrator.Up env s).2).trace =
        processVersions s.trace ++
          (List.range (D.length - V)).map (fun j : Nat => (V : Int) + 1 + (j : Int))) ∧
    (s.ledger = [] →
      (∀ (j : Nat) (d : Migration), D[j]? = some d →
        actOk (runAction env d.upGo d.up) = true) →
      (Migrator.Up env s).1 = Outcome.ok ∧
      ((Migrator.Up env s).2).ledger = stepsSucc D 0 D.length s.clock ∧
      (∀ v : Int, hasSuccess ((Migrator.Up env s).2).ledger v ↔
        (1 ≤ v ∧ v ≤ (D.length : Int))) ∧
      Migrator.Up env ((Migrator.Up env s).2) =
        (Outcome.ok,
          { (Migrator.Up env s).2 with
            trace := ((Migrator.Up env s).2).trace
              ++ [Event.lockAcquire, Event.lockRelease],
            locked := false })) := by
  have hs1m : (lockAcquired s).migrations = D := by
    simp [lockAcquired, hD]
  have hs1led : (lockAcquired s).ledger = s.ledger := rfl
  have hs1c : (lockAcquired s).clock = s.clock := rfl
  have hs1tr : (lockAcquired s).trace = s.trace ++ [Event.lockAcquire] := rfl
  constructor
  · intro rec V hlast hV hVN hacts
    rw [Up_locked env s hlock]
    have hbody := upBody_run env (lockAcquired s) rec V
      (by rw [hs1led]; exact hlast) hV (by rw [hs1m]; exact hVN)
    have hacts' : ∀ (j : Nat) (d : Migration), V ≤ j →
        j < V + (((lockAcquired s).migrations).length - V) →
        D[j]? = some d → actOk (runAction env d.upGo d.up) = true :=
      fun j d hj1 _ hdj => hacts j d hj1 hdj
    have hrun := upFrom_ok env hins D (((lockAcquired s).migrations).length - V)
      (lockAcquired s) V
      (by rw [hs1m])
      (by rw [hs1m]; omega)
      hacts'
    obtain ⟨h1, htr, hled, hck, hlk, hrep⟩ := hrun
    constructor
    · simp only [hbody]
      rw [h1]
    · simp only [hbody]
      rw [h1]
      simp only [unlocked]
      rw [htr, hs1tr, hs1c, hs1m]
      rw [processVersions_append, processVersions_append, processVersions_append]
      rw [processVersions_upEventsFrom D hcontig (D.length - V) V s.clock (by omega)]
      simp [processVersions]
  · intro he hacts
    have hnone : lastByStatus (lockAcquired s).ledger StatusSuccess = none := by
      rw [hs1led, he]; rfl
    have hbody := upBody_notFound env (lockAcquired s) hnone
    have hacts' : ∀ (j : Nat) (d : Migration), 0 ≤ j →
        j < 0 + ((lockAcquired s).migrations).length →
        D[j]? = some d → actOk (runAction env d.upGo d.up) = true :=
      fun j d _ _ hdj => hacts j d hdj
    have hrun := upFrom_ok env hins D ((lockAcquired s).migrations).length
      (lockAcquired s) 0
      (by rw [hs1m])
      (by rw [hs1m]; omega)
      hacts'
    obtain ⟨h1, htr, hled, hck, hlk, hrep⟩ := hrun
    have hledfinal : ((Migrator.Up env s).2).ledger = stepsSucc D 0 D.length s.clock := by
      rw [Up_locked env s hlock]
      simp only [hbody, unlocked]
      have h2 : (upFrom env (lockAcquired s) 0 ((lockAcquired s).migrations).length).2.ledger
          = List.foldl upsert (lockAcquired s).ledger
              (recsOf (upEventsFrom D 0 ((lockAcquired s).migrations).length
                (lockAcquired s).clock)) := hled
      rw [h2, hs1led, hs1c, hs1m, he]
      rw [ledger_after_upEvents D hcontig D.length 0 s.clock [] (by omega) (by simp)]
      rfl
    have hoklen : ((Migrator.Up env s).2).migrations.length = D.length := by
      rw [Up_locked env s hlock]
      simp only [hbody, unlocked]
      obtain ⟨hlen, -, -, -, -⟩ :=
        upFrom_extendsWA env ((lockAcquired s).migrations).length (lockAcquired s) 0
      rw [hlen, hs1m]
    refine ⟨?_, hledfinal, ?_, ?_⟩
    · rw [Up_locked env s hlock]
      simp only [hbody]
      rw [h1]
    · intro v
      rw [hledfinal]
      have := hasSuccess_stepsSucc D D.length 0 s.clock v (by omega) hcontig
      simpa using this
    · exact up_noop env ((Migrator.Up env s).2) D s.clock hlock hcontig hoklen hledfinal
/-- C2 witness: the reconciliation theorem instantiated on two concrete
definitions against an empty ledger. -/
theorem c2_witness :
    (Migrator.Up env0 (st0 [mkDef "w1" 1 "cu" "cd", mkDef "w2" 2 "cu2" "cd2"] [])).1
      = Outcome.ok ∧
    ((Migrator.Up env0
        (st0 [mkDef "w1" 1 "cu" "cd", mkDef "w2" 2 "cu2" "cd2"] [])).2).ledger =
      [⟨1, "w1", StatusSuccess, 1⟩, ⟨2, "w2", StatusSuccess, 3⟩] := by
  have hacts : ∀ (j : Nat) (d : Migration),
      ([mkDef "w1" 1 "cu" "cd", mkDef "w2" 2 "cu2" "cd2"] : List Migration)[j]? = some d →
      actOk (runAction env0 d.upGo d.up) = true := by
    intro j d hdj
    rcases j with _ | _ | j
    · cases hdj
      decide
    · cases hdj
      decide
    · simp at hdj
  have h := (c2_up_reconciliation env0
    (st0 [mkDef "w1" 1 "cu" "cd", mkDef "w2" 2 "cu2" "cd2"] [])
    [mkDef "w1" 1 "cu" "cd", mkDef "w2" 2 "cu2" "cd2"]
    (fun r => rfl) rfl (by decide) rfl).2 rfl hacts
  exact ⟨h.1, by rw [h.2.1]; decide⟩
theorem stepFailEvents_congr (b : Bool) (c : Nat) {d1 d2 : Migration}
    (h : defsCore d1 = defsCore d2) :
    stepFailEvents b d1 c = stepFailEvents b d2 c := by
  obtain ⟨hv, hn, -, -, -, -⟩ := defsCore_fields h
  simp [stepFailEvents, hv, hn]

theorem stepsSucc_version_mem (D : List Migration) (hc : contiguous D = true) :
    ∀ (k i c : Nat) (r : Rec), i + k ≤ D.length → r ∈ stepsSucc D i k c →
      ((i : Int) + 1 ≤ r.version ∧ r.version ≤ (i : Int) + k ∧
        r.status = StatusSuccess)
  | 0, i, c, r, _, hr => by simp [stepsSucc] at hr
  | k + 1, i, c, r, hlen, hr => by
      have hiD : i < D.length := by omega
      obtain ⟨d, hd⟩ : ∃ d, D[i]? = some d := ⟨D[i], List.getElem?_eq_getElem hiD⟩
      have hv : d.version = (i : Int) + 1 := by
        have := contig_get D 1 i d hc hd
        rw [this]; ring
      have hunfS : stepsSucc D i (k + 1) c =
          (⟨d.version, d.name, StatusSuccess, c + 1⟩ : Rec)
            :: stepsSucc D (i + 1) k (c + 2) := by
        have : stepsSucc D i (k + 1) c =
            (match D[i]? with
              | some dd => (⟨dd.version, dd.name, StatusSuccess, c + 1⟩ : Rec)
                  :: stepsSucc D (i + 1) k (c + 2)
              | none => []) := rfl
        rw [this, hd]
      rw [hunfS] at hr
      rcases List.mem_cons.mp hr with hr1 | hr2
      · rw [hr1]
        refine ⟨by simp [hv], by simp only [hv]; push_cast; omega, rfl⟩
      · have := stepsSucc_version_mem D hc k (i + 1) (c + 2) r (by omega) hr2
        push_cast at this ⊢
        exact ⟨by omega, by omega, this.2.2⟩

theorem hasSuccess_append_other (L : List Rec) (r : Rec)
    (hr : r.status ≠ StatusSuccess) (v : Int) :
    hasSuccess (L ++ [r]) v ↔ hasSuccess L v := by
  simp only [hasSuccess, List.mem_append, List.mem_singleton]
  constructor
  · rintro ⟨x, hx | hx, hxv, hxs⟩
    · exact ⟨x, hx, hxv, hxs⟩
    · rw [hx] at hxs
      exact absurd hxs hr
  · rintro ⟨x, hx, hxv, hxs⟩
    exact ⟨x, Or.inl hx, hxv, hxs⟩
/-- C3: from an empty ledger with contiguous definitions, a working store,
the actions of versions 1..K-1 succeeding and the action of version K
(= m+1) failing, Up() writes the Failed (`error`) record for version K,
returns ErrMigrationUp, leaves versions 1..K-1 as Applied records that are
unchanged by the failure, holds no record for any version above K, and its
event trace shows the attempts stop at K. -/
theorem c3_failfast (env : Env) (s : MState) (D : List Migration) (m : Nat)
    (e : String) (d : Migration)
    (hins : insOk env) (hlock : env.lockErr = none)
    (hcontig : contiguous D = true) (hD : s.migrations = D) (he : s.ledger = [])
    (hm : m < D.length) (hd : D[m]? = some d)
    (hacts : ∀ (j : Nat) (dj : Migration), j < m → D[j]? = some dj →
      actOk (runAction env dj.upGo dj.up) = true)
    (hfail : runAction env d.upGo d.up = some (some e)) :
    (Migrator.Up env s).1 = Outcome.err GoErr.migrationUp ∧
    ((Migrator.Up env s).2).ledger =
      stepsSucc D 0 m s.clock ++
        [⟨(m : Int) + 1, d.name, StatusError, s.clock + 2 * m + 1⟩] ∧
    (∀ v : Int, hasSuccess ((Migrator.Up env s).2).ledger v ↔
      (1 ≤ v ∧ v ≤ (m : Int))) ∧
    (∀ r ∈ ((Migrator.Up env s).2).ledger, r.version ≤ (m : Int) + 1) ∧
    ((Migrator.Up env s).2).trace =
      s.trace ++ [Event.lockAcquire] ++ upEventsFrom D 0 m s.clock ++
        stepFailEvents true d (s.clock + 2 * m) ++ [Event.lockRelease] := by
  have hs1m : (lockAcquired s).migrations = D := by simp [lockAcquired, hD]
  have hs1led : (lockAcquired s).ledger = s.ledger := rfl
  have hs1c : (lockAcquired s).clock = s.clock := rfl
  have hs1tr : (lockAcquired s).trace = s.trace ++ [Event.lockAcquire] := rfl
  have hnone : lastByStatus (lockAcquired s).ledger StatusSuccess = none := by
    rw [hs1led, he]; rfl
  have hbody := upBody_notFound env (lockAcquired s) hnone
  have hlen1 : ((lockAcquired s).migrations).length = D.length := by rw [hs1m]
  have hsplitk : ((lockAcquired s).migrations).length = m + (D.length - m) := by
    rw [hlen1]; omega
  have hacts' : ∀ (j : Nat) (dj : Migration), 0 ≤ j → j < 0 + m →
      D[j]? = some dj → actOk (runAction env dj.upGo dj.up) = true :=
    fun j dj _ hj2 hdj => hacts j dj (by omega) hdj
  have hpre := upFrom_ok env hins D m (lockAcquired s) 0 (by rw [hs1m]) (by omega) hacts'
  obtain ⟨hp1, hptr, hpled, hpck, hplk, hprep⟩ := hpre
  obtain ⟨hlenWA, hmapWA, -, -, -⟩ :=
    upFrom_extendsWA env m (lockAcquired s) 0
  set s' : MState := (upFrom env (lockAcquired s) 0 m).2 with hs'
  have hmapD : s'.migrations.map defsCore = D.map defsCore := by
    rw [hmapWA, hs1m]
  have hsome := getElem?_defsCore s'.migrations D hmapD m
  rw [hd] at hsome
  simp only [Option.map_some'] at hsome
  obtain ⟨d0, hg0, hcore0⟩ := Option.map_eq_some'.mp hsome
  have hfail0 : runAction env d0.upGo d0.up = some (some e) := by
    obtain ⟨-, -, hu, -, hug, -⟩ := defsCore_fields hcore0
    rw [hu, hug]
    exact hfail
  have hstep := upMigration_fail env s' m d0 e hg0 hins hfail0
  have hk2 : D.length - m = (D.length - m - 1) + 1 := by omega
  have hrun : upFrom env (lockAcquired s) 0 ((lockAcquired s).migrations).length =
      (Outcome.err GoErr.migrationUp, (upMigration env s' m).2) := by
    rw [hsplitk, upFrom_split env m (D.length - m) (lockAcquired s) 0]
    rw [hp1]
    simp only [Nat.zero_add]
    rw [hk2, upFrom_succ, hstep]
  have hup : Migrator.Up env s =
      (Outcome.err GoErr.migrationUp, unlocked (upMigration env s' m).2) := by
    rw [Up_locked env s hlock, hbody, hrun]
  have hcks' : s'.clock = s.clock + 2 * m := by
    rw [hpck, hs1c]
  have hleds' : s'.ledger = stepsSucc D 0 m s.clock := by
    rw [hpled, hs1led, hs1c, he]
    rw [ledger_after_upEvents D hcontig m 0 s.clock [] (by omega) (by simp)]
    rfl
  have htrs' : s'.trace = s.trace ++ [Event.lockAcquire] ++ upEventsFrom D 0 m s.clock := by
    rw [hptr, hs1tr, hs1c]
  have hdv : d.version = (m : Int) + 1 := by
    have := contig_get D 1 m d hcontig hd
    rw [this]; ring
  have hd0v : d0.version = (m : Int) + 1 := by
    obtain ⟨hv, -, -, -, -, -⟩ := defsCore_fields hcore0
    rw [hv, hdv]
  have hd0n : d0.name = d.name := by
    obtain ⟨-, hn, -, -, -, -⟩ := defsCore_fields hcore0
    exact hn
  have hledF : (upMigration env s' m).2.ledger =
      stepsSucc D 0 m s.clock ++
        [⟨(m : Int) + 1, d.name, StatusError, s.clock + 2 * m + 1⟩] := by
    rw [hstep]
    simp only []
    rw [hleds', hcks']
    have h1 : upsert (stepsSucc D 0 m s.clock)
        ⟨d0.version, d0.name, StatusProcess, s.clock + 2 * m⟩ =
        stepsSucc D 0 m s.clock ++
          [⟨d0.version, d0.name, StatusProcess, s.clock + 2 * m⟩] := by
      apply upsert_notMem
      intro x hx
      have := stepsSucc_version_mem D hcontig m 0 s.clock x (by omega) hx
      simp only [hd0v]
      push_cast at this
      omega
    have h2 : upsert (stepsSucc D 0 m s.clock ++
          [⟨d0.version, d0.name, StatusProcess, s.clock + 2 * m⟩])
        ⟨d0.version, d0.name, StatusError, s.clock + 2 * m + 1⟩ =
        stepsSucc D 0 m s.clock ++
          [⟨d0.version, d0.name, StatusError, s.clock + 2 * m + 1⟩] := by
      apply upsert_append_key
      · rfl
      · rfl
      · intro y hy
        have := stepsSucc_version_mem D hcontig m 0 s.clock y (by omega) hy
        simp only [hd0v]
        push_cast at this
        omega
    rw [h1, h2, hd0v, hd0n]
  have hledUp : ((Migrator.Up env s).2).ledger =
      stepsSucc D 0 m s.clock ++
        [⟨(m : Int) + 1, d.name, StatusError, s.clock + 2 * m + 1⟩] := by
    rw [hup]
    simp only [unlocked]
    exact hledF
  refine ⟨by rw [hup], hledUp, ?_, ?_, ?_⟩
  · intro v
    rw [hledUp]
    rw [hasSuccess_append_other (stepsSucc D 0 m s.clock)
      ⟨(m : Int) + 1, d.name, StatusError, s.clock + 2 * m + 1⟩
      (by intro h; simp [StatusError, StatusSuccess] at h) v]
    have := hasSuccess_stepsSucc D m 0 s.clock v (by omega) hcontig
    simpa using this
  · intro r hr
    rw [hledUp] at hr
    rcases List.mem_append.mp hr with hr1 | hr2
    · have := stepsSucc_version_mem D hcontig m 0 s.clock r (by omega) hr1
      push_cast at this
      omega
    · have : r = ⟨(m : Int) + 1, d.name, StatusError, s.clock + 2 * m + 1⟩ := by
        simpa using hr2
      rw [this]
  · rw [hup]
    simp only [unlocked]
    rw [hstep]
    simp only []
    rw [htrs', hcks', stepFailEvents_congr true (s.clock + 2 * m) hcore0]
/-- C3 witness: the fail-fast theorem instantiated on two definitions with
version 2's action failing. -/
theorem c3_witness :
    (Migrator.Up envFailU2 sC3).1 = Outcome.err GoErr.migrationUp ∧
    ((Migrator.Up envFailU2 sC3).2).ledger =
      [⟨1, "a", StatusSuccess, 1⟩, ⟨2, "b", StatusError, 3⟩] := by
  have hacts : ∀ (j : Nat) (dj : Migration), j < 1 →
      ([mkDef "a" 1 "u1" "d1", mkDef "b" 2 "u2" "d2"] : List Migration)[j]? = some dj →
      actOk (runAction envFailU2 dj.upGo dj.up) = true := by
    intro j dj hj hdj
    rcases j with _ | j
    · cases hdj
      decide
    · omega
  have h := c3_failfast envFailU2 sC3 [mkDef "a" 1 "u1" "d1", mkDef "b" 2 "u2" "d2"]
    1 "bad" (mkDef "b" 2 "u2" "d2") (fun r => rfl) rfl (by decide) rfl rfl
    (by decide) rfl hacts (by decide)
  exact ⟨h.1, by rw [h.2.1]; decide⟩
theorem downBody_run (env : Env) (s : MState) (rec : Rec) (V : Nat)
    (hlast : lastByStatus s.ledger StatusSuccess = some rec)
    (hV : rec.version = (V : Int)) (h1V : 1 ≤ V)
    (hVN : V ≤ s.migrations.length) :
    downBody env s =
      (match downMigration env s (V - 1) with
        | (Outcome.ok, t) => (Outcome.ok, t)
        | (Outcome.err _, t) => (Outcome.err GoErr.migrationDown, t)
        | (Outcome.panicked, t) => (Outcome.panicked, t)) := by
  have hsel := selectLast_of_lastByStatus s.ledger rec hlast
  have hguard : ¬(rec.version - 1 > (s.migrations.length : Int)) := by
    rw [hV]
    omega
  have hidx : goIndex s.migrations (rec.version - 1) = some (V - 1) := by
    unfold goIndex
    rw [if_pos]
    · rw [hV]
      congr 1
      omega
    · constructor
      · rw [hV]; omega
      · rw [hV]; omega
  simp only [downBody, hsel, if_neg hguard, hidx]

/-- C4: Down() with a working store: on a ledger with no Applied record it
returns ErrMigrationNotFound and performs no ledger write (its only events
are lock acquire/release); otherwise, when the most recent Applied record
has version V with 1 <= V <= N, it rolls back exactly that single version:
it writes (V, name, RollingBack/cancellation) before running the down
action, then (V, name, RolledBack/cancel) on success, or (V, name,
Failed/error) plus an error return on action failure, touching no other
version and stepping back exactly one version per call. -/
theorem c4_down_single_step (env : Env) (s : MState)
    (hins : insOk env) (hlock : env.lockErr = none) :
    (lastByStatus s.ledger StatusSuccess = none →
      Migrator.Down env s =
        (Outcome.err GoErr.notFound,
          { s with trace := s.trace ++ [Event.lockAcquire, Event.lockRelease],
                   locked := false })) ∧
    (∀ (rec : Rec) (V : Nat) (d : Migration),
      lastByStatus s.ledger StatusSuccess = some rec →
      rec.version = (V : Int) → 1 ≤ V → V ≤ s.migrations.length →
      s.migrations[V - 1]? = some d →
      contiguous s.migrations = true →
      (d.version = rec.version ∧
      (actOk (runAction env d.downGo d.down) = true →
        Migrator.Down env s =
          (Outcome.ok,
            { s with
              migrations := s.migrations.set (V - 1)
                { d with status := StatusCancel, statusChangeTime := s.clock + 1 },
              clock := s.clock + 2,
              ledger := upsert
                (upsert s.ledger ⟨d.version, d.name, StatusCancellation, s.clock⟩)
                ⟨d.version, d.name, StatusCancel, s.clock + 1⟩,
              trace := s.trace ++ [Event.lockAcquire] ++ stepEvents false d s.clock
                ++ [Event.lockRelease],
              locked := false })) ∧
      (∀ e, runAction env d.downGo d.down = some (some e) →
        Migrator.Down env s =
          (Outcome.err GoErr.migrationDown,
            { s with
              migrations := s.migrations.set (V - 1)
                { d with status := StatusError, statusChangeTime := s.clock + 1 },
              clock := s.clock + 2,
              ledger := upsert
                (upsert s.ledger ⟨d.version, d.name, StatusCancellation, s.clock⟩)
                ⟨d.version, d.name, StatusError, s.clock + 1⟩,
              trace := s.trace ++ [Event.lockAcquire] ++ stepFailEvents false d s.clock
                ++ [Event.lockRelease],
              locked := false })))) := by
  have hs1m : (lockAcquired s).migrations = s.migrations := rfl
  have hs1led : (lockAcquired s).ledger = s.ledger := rfl
  have hs1c : (lockAcquired s).clock = s.clock := rfl
  constructor
  · intro hnone
    have hsel := selectLast_of_none (lockAcquired s).ledger (by rw [hs1led]; exact hnone)
    rw [Down_locked env s hlock]
    have hbody : downBody env (lockAcquired s) =
        (Outcome.err GoErr.notFound, lockAcquired s) := by
      simp only [downBody, hsel]
    rw [hbody]
    simp [unlocked, lockAcquired, List.append_assoc]
  · intro rec V d hlast hV h1V hVN hg hcontig
    have hdv : d.version = rec.version := by
      have := contig_get s.migrations 1 (V - 1) d hcontig hg
      rw [this, hV]
      omega
    have hbody := downBody_run env (lockAcquired s) rec V
      (by rw [hs1led]; exact hlast) hV h1V (by rw [hs1m]; exact hVN)
    refine ⟨hdv, ?_, ?_⟩
    · intro hact
      have hstep := downMigration_ok env (lockAcquired s) (V - 1) d
        (by rw [hs1m]; exact hg) hins hact
      rw [Down_locked env s hlock, hbody, hstep]
      simp only []
      simp [unlocked, lockAcquired, List.append_assoc]
    · intro e hfail
      have hstep := downMigration_fail env (lockAcquired s) (V - 1) d e
        (by rw [hs1m]; exact hg) hins hfail
      rw [Down_locked env s hlock, hbody, hstep]
      simp only []
      simp [unlocked, lockAcquired, List.append_assoc]

/-- C4 witness: the Down theorem instantiated on two applied versions. -/
theorem c4_witness :
    (Migrator.Down env0 (st0 [mkDef "m1" 1 "u1" "d1", mkDef "m2" 2 "u2" "d2"]
      [⟨1, "m1", StatusSuccess, 0⟩, ⟨2, "m2", StatusSuccess, 0⟩])).1 = Outcome.ok ∧
    ((Migrator.Down env0 (st0 [mkDef "m1" 1 "u1" "d1", mkDef "m2" 2 "u2" "d2"]
      [⟨1, "m1", StatusSuccess, 0⟩, ⟨2, "m2", StatusSuccess, 0⟩])).2).ledger =
      [⟨1, "m1", StatusSuccess, 0⟩, ⟨2, "m2", StatusCancel, 1⟩] := by
  have h := (c4_down_single_step env0
    (st0 [mkDef "m1" 1 "u1" "d1", mkDef "m2" 2 "u2" "d2"]
      [⟨1, "m1", StatusSuccess, 0⟩, ⟨2, "m2", StatusSuccess, 0⟩])
    (fun r => rfl) rfl).2 ⟨2, "m2", StatusSuccess, 0⟩ 2 (mkDef "m2" 2 "u2" "d2")
    (by decide) (by decide) (by decide) (by decide) rfl (by decide)
  have hd := h.2.1 (by decide)
  rw [hd]
  exact ⟨rfl, by decide⟩
theorem actionEvents_append (l1 l2 : List Event) :
    actionEvents (l1 ++ l2) = actionEvents l1 ++ actionEvents l2 := by
  simp [actionEvents]

theorem actionEvents_stepEvents_runs (b : Bool) (d : Migration) (c : Nat)
    (h : actionRuns (if b then d.upGo else d.downGo) (if b then d.up else d.down) = true) :
    actionEvents (stepEvents b d c) = [Event.action b d.version] := by
  simp [stepEvents, h, actionEvents]

theorem stepsSucc_snoc (D : List Migration) :
    ∀ (k i c : Nat) (d : Migration), D[i + k]? = some d →
      stepsSucc D i (k + 1) c =
        stepsSucc D i k c ++ [⟨d.version, d.name, StatusSuccess, c + 2 * k + 1⟩]
  | 0, i, c, d, hd => by
      have h : stepsSucc D i 1 c =
          (match D[i]? with
            | some dd => (⟨dd.version, dd.name, StatusSuccess, c + 1⟩ : Rec)
                :: stepsSucc D (i + 1) 0 (c + 2)
            | none => []) := rfl
      rw [h]
      rw [show i + 0 = i from rfl] at hd
      simp [hd, stepsSucc]
  | k + 1, i, c, d, hd => by
      have hiD : ∃ di, D[i]? = some di := by
        have hin : i + (k + 1) < D.length := by
          by_contra hcon
          rw [List.getElem?_eq_none (by omega)] at hd
          exact Option.noConfusion hd
        exact ⟨D[i], List.getElem?_eq_getElem (by omega)⟩
      obtain ⟨di, hdi⟩ := hiD
      have h1 : stepsSucc D i (k + 2) c =
          (⟨di.version, di.name, StatusSuccess, c + 1⟩ : Rec)
            :: stepsSucc D (i + 1) (k + 1) (c + 2) := by
        have : stepsSucc D i (k + 2) c =
            (match D[i]? with
              | some dd => (⟨dd.version, dd.name, StatusSuccess, c + 1⟩ : Rec)
                  :: stepsSucc D (i + 1) (k + 1) (c + 2)
              | none => []) := rfl
        rw [this, hdi]
      have h2 : stepsSucc D i (k + 1) c =
          (⟨di.version, di.name, StatusSuccess, c + 1⟩ : Rec)
            :: stepsSucc D (i + 1) k (c + 2) := by
        have : stepsSucc D i (k + 1) c =
            (match D[i]? with
              | some dd => (⟨dd.version, dd.name, StatusSuccess, c + 1⟩ : Rec)
                  :: stepsSucc D (i + 1) k (c + 2)
              | none => []) := rfl
        rw [this, hdi]
      have ih := stepsSucc_snoc D k (i + 1) (c + 2) d
        (by rw [show i + 1 + k = i + (k + 1) from by omega]; exact hd)
      have harith : c + 2 + 2 * k + 1 = c + 2 * (k + 1) + 1 := by omega
      rw [h1, h2, ih, harith]
      simp [List.cons_append]

theorem hasSuccess_append_single (L : List Rec) (r : Rec) (v : Int) :
    hasSuccess (L ++ [r]) v ↔
      (hasSuccess L v ∨ (r.version = v ∧ r.status = StatusSuccess)) := by
  simp only [hasSuccess, List.mem_append, List.mem_singleton]
  constructor
  · rintro ⟨x, hx | hx, hxv, hxs⟩
    · exact Or.inl ⟨x, hx, hxv, hxs⟩
    · rw [hx] at hxv hxs
      exact Or.inr ⟨hxv, hxs⟩
  · rintro (⟨x, hx, hxv, hxs⟩ | ⟨hv, hs⟩)
    · exact ⟨x, Or.inl hx, hxv, hxs⟩
    · exact ⟨r, Or.inr rfl, hv, hs⟩
theorem stepMigration_not_panicked (env : Env) (s : MState) (i : Nat) (b : Bool)
    (d0 : Migration) (hg : s.migrations[i]? = some d0) :
    (stepMigration env s i b).1 ≠ Outcome.panicked := by
  rcases h1 : env.insertRes ⟨d0.version, d0.name,
      (if b then StatusProcess else StatusCancellation), s.clock⟩ with _ | e1
  swap
  · rw [stepMigration_insertFail env s i b d0 e1 hg h1]
    simp
  · have hAct : ∀ r, runAction env (if b then d0.upGo else d0.downGo)
        (if b then d0.up else d0.down) = r →
        (stepMigration env s i b).1 ≠ Outcome.panicked := by
      intro r ha
      match r, ha with
      | some (some e), ha =>
          rw [stepMigration_actionFail_result env s i b d0 e hg h1 ha]
          simp
      | some none, ha =>
          have hact : actOk (runAction env (if b then d0.upGo else d0.downGo)
              (if b then d0.up else d0.down)) = true := by rw [ha]; rfl
          rcases h2 : env.insertRes ⟨d0.version, d0.name,
              (if b then StatusSuccess else StatusCancel), s.clock + 1⟩ with _ | e2
          · rw [stepMigration_ok2 env s i b d0 hg h1 h2 hact]
            simp
          · rw [stepMigration_finishFail env s i b d0 e2 hg h1 h2 hact]
            simp
      | none, ha =>
          have hact : actOk (runAction env (if b then d0.upGo else d0.downGo)
              (if b then d0.up else d0.down)) = true := by rw [ha]; rfl
          rcases h2 : env.insertRes ⟨d0.version, d0.name,
              (if b then StatusSuccess else StatusCancel), s.clock + 1⟩ with _ | e2
          · rw [stepMigration_ok2 env s i b d0 hg h1 h2 hact]
            simp
          · rw [stepMigration_finishFail env s i b d0 e2 hg h1 h2 hact]
            simp
    exact hAct _ rfl

/-- C9 (amended): the off-by-one consistency guard alone does not keep the
definition lookups in bounds (at lastApplied = N+1 it passes and Down()
panics, see the counterexample); what does hold is: whenever the most
recent Applied version V satisfies 1 <= V <= N, the index V - 1 that
Down() uses is in bounds and Down() cannot panic, for every ledger state;
and on a consistent state (working store, obtainable lock, contiguous
definitions, ledger exactly the Applied records of versions 1..V) the
lookup m.migrations[lastVersion] of Redo()'s re-apply phase is likewise in
bounds and Redo() cannot panic, whatever the migration actions return. -/
theorem c9_index_amended (env : Env) (s : MState) (rec : Rec) (V : Nat)
    (hlast : lastByStatus s.ledger StatusSuccess = some rec)
    (hV : rec.version = (V : Int)) (h1V : 1 ≤ V)
    (hVN : V ≤ s.migrations.length) :
    (∃ j, goIndex s.migrations (rec.version - 1) = some j ∧
      j < s.migrations.length) ∧
    (Migrator.Down env s).1 ≠ Outcome.panicked ∧
    (∀ (D : List Migration) (c' : Nat),
      insOk env → env.lockErr = none → contiguous D = true →
      s.migrations = D → s.ledger = stepsSucc D 0 V c' →
      (Migrator.Redo env s).1 ≠ Outcome.panicked) := by
  have hidx : goIndex s.migrations (rec.version - 1) = some (V - 1) := by
    unfold goIndex
    rw [if_pos]
    · rw [hV]
      congr 1
      omega
    · constructor
      · rw [hV]; omega
      · rw [hV]; omega
  refine ⟨⟨V - 1, hidx, by omega⟩, ?_, ?_⟩
  · cases hl : env.lockErr with
    | some e =>
        rw [Down_lockFail env s e hl]
        simp
    | none =>
        rw [Down_locked env s hl]
        have hbody := downBody_run env (lockAcquired s) rec V hlast hV h1V hVN
        obtain ⟨d, hg⟩ : ∃ d, (lockAcquired s).migrations[V - 1]? = some d := by
          have hm : (lockAcquired s).migrations = s.migrations := rfl
          rw [hm]
          exact ⟨s.migrations[V - 1], List.getElem?_eq_getElem (by omega)⟩
        have hnp : (downMigration env (lockAcquired s) (V - 1)).1 ≠ Outcome.panicked :=
          stepMigration_not_panicked env (lockAcquired s) (V - 1) false d hg
        show (downBody env (lockAcquired s)).1 ≠ Outcome.panicked
        rw [hbody]
        rcases hdm : downMigration env (lockAcquired s) (V - 1) with ⟨o, t⟩
        rw [hdm] at hnp
        cases o with
        | ok => simp
        | err e => simp
        | panicked => exact absurd rfl hnp
  · intro D c' hins hlock hcontig hD hled
    have hVN' : V ≤ D.length := by rw [← hD]; exact hVN
    obtain ⟨d, hd⟩ : ∃ d, D[V - 1]? = some d :=
      ⟨D[V - 1], List.getElem?_eq_getElem (by omega)⟩
    have hdv : d.version = (V : Int) := by
      have := contig_get D 1 (V - 1) d hcontig hd
      rw [this]
      omega
    have hVsplit : V = (V - 1) + 1 := by omega
    have hsnoc : stepsSucc D 0 V c' =
        stepsSucc D 0 (V - 1) c' ++
          [⟨d.version, d.name, StatusSuccess, c' + 2 * (V - 1) + 1⟩] := by
      conv_lhs => rw [hVsplit]
      exact stepsSucc_snoc D (V - 1) 0 c' d (by simpa using hd)
    have hprefixBound : ∀ x ∈ stepsSucc D 0 (V - 1) c', x.version ≠ d.version := by
      intro x hx
      obtain ⟨h1, h2, -⟩ :=
        stepsSucc_version_mem D hcontig (V - 1) 0 c' x (by omega) hx
      rw [hdv]
      omega
    have hbodyD := downBody_run env (lockAcquired s) rec V hlast hV h1V hVN
    have hgD : (lockAcquired s).migrations[V - 1]? = some d := by
      show s.migrations[V - 1]? = some d
      rw [hD]
      exact hd
    cases hact : actOk (runAction env d.downGo d.down) with
    | false =>
        obtain ⟨e, he⟩ : ∃ e, runAction env d.downGo d.down = some (some e) := by
          rcases hr : runAction env d.downGo d.down with _ | r2
          · rw [hr] at hact; simp [actOk] at hact
          · rcases r2 with _ | e
            · rw [hr] at hact; simp [actOk] at hact
            · exact ⟨e, rfl⟩
        have hfail := downMigration_fail env (lockAcquired s) (V - 1) d e hgD hins he
        have hDownE : Migrator.Down env s =
            (Outcome.err GoErr.migrationDown,
              unlocked (downMigration env (lockAcquired s) (V - 1)).2) := by
          rw [Down_locked env s hlock, hbodyD, hfail]
        unfold Migrator.Redo
        rw [hDownE]
        simp
    | true =>
        have hstepD := downMigration_ok env (lockAcquired s) (V - 1) d hgD hins hact
        have hDown : Migrator.Down env s =
            (Outcome.ok, unlocked (downMigration env (lockAcquired s) (V - 1)).2) := by
          rw [Down_locked env s hlock, hbodyD, hstepD]
        set sD : MState := unlocked (downMigration env (lockAcquired s) (V - 1)).2 with hsD
        have hsDled0 : sD.ledger =
            upsert (upsert s.ledger ⟨d.version, d.name, StatusCancellation, s.clock⟩)
              ⟨d.version, d.name, StatusCancel, s.clock + 1⟩ := by
          rw [hsD, hstepD]
          rfl
        have hsDledger : sD.ledger =
            stepsSucc D 0 (V - 1) c' ++
              [⟨d.version, d.name, StatusCancel, s.clock + 1⟩] := by
          rw [hsDled0, hled, hsnoc,
            upsert_append_key (stepsSucc D 0 (V - 1) c')
              ⟨d.version, d.name, StatusSuccess, c' + 2 * (V - 1) + 1⟩
              ⟨d.version, d.name, StatusCancellation, s.clock⟩ rfl rfl hprefixBound,
            upsert_append_key (stepsSucc D 0 (V - 1) c')
              ⟨d.version, d.name, StatusCancellation, s.clock⟩
              ⟨d.version, d.name, StatusCancel, s.clock + 1⟩ rfl rfl hprefixBound]
        have hsDmig0 : sD.migrations =
            s.migrations.set (V - 1)
              { d with status := StatusCancel, statusChangeTime := s.clock + 1 } := by
          rw [hsD, hstepD]
          rfl
        have hsDlen : sD.migrations.length = D.length := by
          rw [hsDmig0, List.length_set, hD]
        have hselD : lastByStatus sD.ledger StatusSuccess =
            lastByStatus (stepsSucc D 0 (V - 1) c') StatusSuccess := by
          rw [hsDledger]
          exact lastByStatus_append_single
            ⟨d.version, d.name, StatusCancel, s.clock + 1⟩ StatusSuccess
            (by show StatusCancel ≠ StatusSuccess; decide)
            (stepsSucc D 0 (V - 1) c')
        have hnp : ∀ j : Nat, j < sD.migrations.length →
            (redoUp env sD ((j : Nat) : Int)).1 ≠ Outcome.panicked := by
          intro j hj
          have hc : 0 ≤ ((j : Nat) : Int) ∧
              ((j : Nat) : Int) < (sD.migrations.length : Int) :=
            ⟨Int.natCast_nonneg _, by exact_mod_cast hj⟩
          have hidx2 : goIndex sD.migrations ((j : Nat) : Int) = some j := by
            unfold goIndex
            rw [if_pos hc]
            simp
          obtain ⟨d2, hd2⟩ : ∃ d2, sD.migrations[j]? = some d2 :=
            ⟨sD.migrations[j], List.getElem?_eq_getElem hj⟩
          have hnp2 : (upMigration env sD j).1 ≠ Outcome.panicked :=
            stepMigration_not_panicked env sD j true d2 hd2
          unfold redoUp
          rw [hidx2]
          simp only []
          rcases hu : upMigration env sD j with ⟨o, t⟩
          rw [hu] at hnp2
          cases o with
          | ok => simp
          | err e => simp
          | panicked => exact absurd rfl hnp2
        unfold Migrator.Redo
        rw [hDown]
        simp only []
        by_cases hV1 : V = 1
        · subst hV1
          have hnone : lastByStatus sD.ledger StatusSuccess = none := by
            rw [hselD]
            rfl
          rw [selectLast_of_none sD.ledger hnone]
          show (redoUp env sD ((0 : Nat) : Int)).1 ≠ Outcome.panicked
          exact hnp 0 (by rw [hsDlen]; omega)
        · obtain ⟨nm2, tm2, hlast2⟩ :=
            lastByStatus_stepsSucc D hcontig (V - 1) 0 c' (by omega) (by omega)
          have hlastD : lastByStatus sD.ledger StatusSuccess =
              some ⟨((V - 1 : Nat) : Int), nm2, StatusSuccess, tm2⟩ := by
            rw [hselD, hlast2]
            congr 1
            simp
          rw [selectLast_of_lastByStatus sD.ledger _ hlastD]
          simp only []
          have hcond : ¬ ((⟨((V - 1 : Nat) : Int), nm2, StatusSuccess, tm2⟩ : Rec).version
              - 1 > (sD.migrations.length : Int)) := by
            show ¬ (((V - 1 : Nat) : Int) - 1 > (sD.migrations.length : Int))
            rw [hsDlen]
            omega
          rw [if_neg hcond]
          show (redoUp env sD ((V - 1 : Nat) : Int)).1 ≠ Outcome.panicked
          exact hnp (V - 1) (by rw [hsDlen]; omega)

/-- C9 witness: the amended index-safety theorem instantiated with two
definitions, a consistent ledger applied up to version 2 = N, and the
always-working store: both lookups in bounds, neither Down() nor Redo()
panics. -/
theorem c9_witness :
    (∃ j, goIndex ([mkDef "a" 1 "ua" "da", mkDef "b" 2 "ub" "db"] : List Migration)
        ((⟨2, "b", StatusSuccess, 3⟩ : Rec).version - 1) = some j ∧
      j < ([mkDef "a" 1 "ua" "da", mkDef "b" 2 "ub" "db"] : List Migration).length) ∧
    (Migrator.Down env0 (st0 [mkDef "a" 1 "ua" "da", mkDef "b" 2 "ub" "db"]
      (stepsSucc [mkDef "a" 1 "ua" "da", mkDef "b" 2 "ub" "db"] 0 2 0))).1 ≠
        Outcome.panicked ∧
    (Migrator.Redo env0 (st0 [mkDef "a" 1 "ua" "da", mkDef "b" 2 "ub" "db"]
      (stepsSucc [mkDef "a" 1 "ua" "da", mkDef "b" 2 "ub" "db"] 0 2 0))).1 ≠
        Outcome.panicked :=
  have h := c9_index_amended env0
    (st0 [mkDef "a" 1 "ua" "da", mkDef "b" 2 "ub" "db"]
      (stepsSucc [mkDef "a" 1 "ua" "da", mkDef "b" 2 "ub" "db"] 0 2 0))
    ⟨2, "b", StatusSuccess, 3⟩ 2 (by decide) (by decide) (by decide) (by decide)
  ⟨h.1, h.2.1,
    h.2.2 [mkDef "a" 1 "ua" "da", mkDef "b" 2 "ub" "db"] 0
      (fun _ => rfl) rfl (by decide) rfl rfl⟩

/-- C5 (amended): Redo() aborts immediately, propagating the error, whenever
the Down() phase fails; on a consistent contiguous state whose ledger shows
versions 1..V applied, Redo() succeeds, rolls back exactly version V and
re-applies that same version (action order down(V) then up(V)), leaving the
set of applied versions unchanged with a fresh timestamp on V's record.
The original claim's "equivalent to Down() immediately followed by Up()" is
refuted by the counterexample: Up() reapplies every version above the new
last-applied one, while Redo() re-applies only the single rolled-back
version (and does so after the advisory lock has been released). -/
theorem c5_redo_amended (env : Env) (s : MState) (D : List Migration)
    (V : Nat) (c' : Nat) (d : Migration)
    (hins : insOk env) (hlock : env.lockErr = none)
    (hcontig : contiguous D = true) (hD : s.migrations = D)
    (hled : s.ledger = stepsSucc D 0 V c')
    (h1V : 1 ≤ V) (hVN : V ≤ D.length) (hd : D[V - 1]? = some d)
    (hdown : runAction env d.downGo d.down = some none)
    (hup : runAction env d.upGo d.up = some none) :
    (∀ (s0 t : MState) (e : GoErr), Migrator.Down env s0 = (Outcome.err e, t) →
      Migrator.Redo env s0 = (Outcome.err e, t)) ∧
    (Migrator.Redo env s).1 = Outcome.ok ∧
    ((Migrator.Redo env s).2).ledger =
      stepsSucc D 0 (V - 1) c' ++
        [⟨d.version, d.name, StatusSuccess, s.clock + 3⟩] ∧
    (∀ v : Int, hasSuccess ((Migrator.Redo env s).2).ledger v ↔
      hasSuccess s.ledger v) ∧
    ((Migrator.Redo env s).2).trace =
      s.trace ++ [Event.lockAcquire] ++ stepEvents false d s.clock ++
        [Event.lockRelease] ++ stepEvents true d (s.clock + 2) ∧
    actionEvents ((Migrator.Redo env s).2).trace =
      actionEvents s.trace ++
        [Event.action false d.version, Event.action true d.version] := by
  have habort : ∀ (s0 t : MState) (e : GoErr),
      Migrator.Down env s0 = (Outcome.err e, t) →
      Migrator.Redo env s0 = (Outcome.err e, t) := by
    intro s0 t e h
    unfold Migrator.Redo
    rw [h]
  have hdv : d.version = (V : Int) := by
    have := contig_get D 1 (V - 1) d hcontig hd
    rw [this]
    omega
  have hVsplit : V = (V - 1) + 1 := by omega
  have hsnoc : stepsSucc D 0 V c' =
      stepsSucc D 0 (V - 1) c' ++
        [⟨d.version, d.name, StatusSuccess, c' + 2 * (V - 1) + 1⟩] := by
    conv_lhs => rw [hVsplit]
    exact stepsSucc_snoc D (V - 1) 0 c' d (by simpa using hd)
  have hprefixBound : ∀ x ∈ stepsSucc D 0 (V - 1) c', x.version ≠ d.version := by
    intro x hx
    obtain ⟨h1, h2, -⟩ :=
      stepsSucc_version_mem D hcontig (V - 1) 0 c' x (by omega) hx
    rw [hdv]
    omega
  -- the Down phase
  obtain ⟨nm, tm, hlastV⟩ := lastByStatus_stepsSucc D hcontig V 0 c' h1V (by omega)
  have hlast : lastByStatus s.ledger StatusSuccess =
      some ⟨(V : Int), nm, StatusSuccess, tm⟩ := by
    rw [hled, hlastV]
    congr 1
    simp
  have hbodyD := downBody_run env (lockAcquired s)
    ⟨(V : Int), nm, StatusSuccess, tm⟩ V hlast rfl h1V
    (show V ≤ s.migrations.length by rw [hD]; exact hVN)
  have hgD : (lockAcquired s).migrations[V - 1]? = some d := by
    show s.migrations[V - 1]? = some d
    rw [hD]
    exact hd
  have hstepD := downMigration_ok env (lockAcquired s) (V - 1) d hgD hins
    (by rw [hdown]; rfl)
  have hDown : Migrator.Down env s =
      (Outcome.ok, unlocked (downMigration env (lockAcquired s) (V - 1)).2) := by
    rw [Down_locked env s hlock, hbodyD, hstepD]
  set sD : MState := unlocked (downMigration env (lockAcquired s) (V - 1)).2 with hsD
  -- closed forms of the state after Down
  have hsDled0 : sD.ledger =
      upsert (upsert s.ledger ⟨d.version, d.name, StatusCancellation, s.clock⟩)
        ⟨d.version, d.name, StatusCancel, s.clock + 1⟩ := by
    rw [hsD, hstepD]
    rfl
  have hsDledger : sD.ledger =
      stepsSucc D 0 (V - 1) c' ++
        [⟨d.version, d.name, StatusCancel, s.clock + 1⟩] := by
    rw [hsDled0, hled, hsnoc,
      upsert_append_key (stepsSucc D 0 (V - 1) c')
        ⟨d.version, d.name, StatusSuccess, c' + 2 * (V - 1) + 1⟩
        ⟨d.version, d.name, StatusCancellation, s.clock⟩ rfl rfl hprefixBound,
      upsert_append_key (stepsSucc D 0 (V - 1) c')
        ⟨d.version, d.name, StatusCancellation, s.clock⟩
        ⟨d.version, d.name, StatusCancel, s.clock + 1⟩ rfl rfl hprefixBound]
  have hsDtrace : sD.trace =
      s.trace ++ [Event.lockAcquire] ++ stepEvents false d s.clock ++
        [Event.lockRelease] := by
    rw [hsD, hstepD]
    rfl
  have hsDclock : sD.clock = s.clock + 2 := by
    rw [hsD, hstepD]
    rfl
  have hsDmig0 : sD.migrations =
      s.migrations.set (V - 1)
        { d with status := StatusCancel, statusChangeTime := s.clock + 1 } := by
    rw [hsD, hstepD]
    rfl
  have hsDmig : sD.migrations =
      D.set (V - 1)
        { d with status := StatusCancel, statusChangeTime := s.clock + 1 } := by
    rw [hsDmig0, hD]
  have hsDlen : sD.migrations.length = D.length := by
    rw [hsDmig, List.length_set]
  -- the re-apply phase
  have hgU : sD.migrations[V - 1]? =
      some { d with status := StatusCancel, statusChangeTime := s.clock + 1 } := by
    rw [hsDmig, List.getElem?_set_self]
    omega
  have hstepU := upMigration_ok env sD (V - 1)
    { d with status := StatusCancel, statusChangeTime := s.clock + 1 } hgU hins
    (show actOk (runAction env d.upGo d.up) = true by rw [hup]; rfl)
  have hredoUp : redoUp env sD ((V - 1 : Nat) : Int) =
      (Outcome.ok, (upMigration env sD (V - 1)).2) := by
    have hidx : goIndex sD.migrations ((V - 1 : Nat) : Int) = some (V - 1) := by
      have hc : 0 ≤ ((V - 1 : Nat) : Int) ∧
          ((V - 1 : Nat) : Int) < (sD.migrations.length : Int) :=
        ⟨Int.natCast_nonneg _,
          by rw [hsDlen]; exact_mod_cast (show V - 1 < D.length by omega)⟩
      unfold goIndex
      rw [if_pos hc]
      simp
    unfold redoUp
    rw [hidx]
    simp only []
    rw [hstepU]
  have hselD : lastByStatus sD.ledger StatusSuccess =
      lastByStatus (stepsSucc D 0 (V - 1) c') StatusSuccess := by
    rw [hsDledger]
    exact lastByStatus_append_single ⟨d.version, d.name, StatusCancel, s.clock + 1⟩
      StatusSuccess (by show StatusCancel ≠ StatusSuccess; decide)
      (stepsSucc D 0 (V - 1) c')
  have hRedo : Migrator.Redo env s = (Outcome.ok, (upMigration env sD (V - 1)).2) := by
    unfold Migrator.Redo
    rw [hDown]
    simp only []
    by_cases hV1 : V = 1
    · subst hV1
      have hnone : lastByStatus sD.ledger StatusSuccess = none := by
        rw [hselD]
        rfl
      rw [selectLast_of_none sD.ledger hnone]
      show redoUp env sD 0 = (Outcome.ok, (upMigration env sD (1 - 1)).2)
      exact hredoUp
    · obtain ⟨nm2, tm2, hlast2⟩ :=
        lastByStatus_stepsSucc D hcontig (V - 1) 0 c' (by omega) (by omega)
      have hlastD : lastByStatus sD.ledger StatusSuccess =
          some ⟨((V - 1 : Nat) : Int), nm2, StatusSuccess, tm2⟩ := by
        rw [hselD, hlast2]
        congr 1
        simp
      rw [selectLast_of_lastByStatus sD.ledger _ hlastD]
      simp only []
      have hcond : ¬ ((⟨((V - 1 : Nat) : Int), nm2, StatusSuccess, tm2⟩ : Rec).version
          - 1 > (sD.migrations.length : Int)) := by
        show ¬ (((V - 1 : Nat) : Int) - 1 > (sD.migrations.length : Int))
        rw [hsDlen]
        omega
      rw [if_neg hcond]
      exact hredoUp
  -- closed forms of the state after the re-apply
  have hledU : ((upMigration env sD (V - 1)).2).ledger =
      upsert (upsert sD.ledger ⟨d.version, d.name, StatusProcess, sD.clock⟩)
        ⟨d.version, d.name, StatusSuccess, sD.clock + 1⟩ := by
    rw [hstepU]
  have hledF : ((upMigration env sD (V - 1)).2).ledger =
      stepsSucc D 0 (V - 1) c' ++
        [⟨d.version, d.name, StatusSuccess, s.clock + 3⟩] := by
    rw [hledU, hsDledger, hsDclock,
      upsert_append_key (stepsSucc D 0 (V - 1) c')
        ⟨d.version, d.name, StatusCancel, s.clock + 1⟩
        ⟨d.version, d.name, StatusProcess, s.clock + 2⟩ rfl rfl hprefixBound,
      upsert_append_key (stepsSucc D 0 (V - 1) c')
        ⟨d.version, d.name, StatusProcess, s.clock + 2⟩
        ⟨d.version, d.name, StatusSuccess, s.clock + 2 + 1⟩ rfl rfl hprefixBound]
  have htrU : ((upMigration env sD (V - 1)).2).trace =
      sD.trace ++ stepEvents true d sD.clock := by
    rw [hstepU]
    rfl
  have htrF : ((upMigration env sD (V - 1)).2).trace =
      s.trace ++ [Event.lockAcquire] ++ stepEvents false d s.clock ++
        [Event.lockRelease] ++ stepEvents true d (s.clock + 2) := by
    rw [htrU, hsDtrace, hsDclock]
  refine ⟨habort, by rw [hRedo], by rw [hRedo]; exact hledF, ?_,
    by rw [hRedo]; exact htrF, ?_⟩
  · intro v
    rw [hRedo]
    show hasSuccess ((upMigration env sD (V - 1)).2).ledger v ↔ hasSuccess s.ledger v
    rw [hledF, hled, hsnoc, hasSuccess_append_single, hasSuccess_append_single]
  · rw [hRedo]
    show actionEvents ((upMigration env sD (V - 1)).2).trace =
      actionEvents s.trace ++
        [Event.action false d.version, Event.action true d.version]
    rw [htrF]
    have hruns_d : actionRuns d.downGo d.down = true := by
      rw [actionRuns_isSome env d.downGo d.down, hdown]
      rfl
    have hruns_u : actionRuns d.upGo d.up = true := by
      rw [actionRuns_isSome env d.upGo d.up, hup]
      rfl
    rw [actionEvents_append, actionEvents_append, actionEvents_append,
      actionEvents_append,
      actionEvents_stepEvents_runs false d s.clock hruns_d,
      actionEvents_stepEvents_runs true d (s.clock + 2) hruns_u]
    simp [actionEvents]

/-- Witness for C5 (amended): on two contiguous definitions with both
applied, Redo() returns ok. -/
theorem c5_witness :
    insOk env0 ∧
    contiguous [mkDef "m1" 1 "u1" "d1", mkDef "m2" 2 "u2" "d2"] = true ∧
    (Migrator.Redo env0 (st0 [mkDef "m1" 1 "u1" "d1", mkDef "m2" 2 "u2" "d2"]
        (stepsSucc [mkDef "m1" 1 "u1" "d1", mkDef "m2" 2 "u2" "d2"] 0 2 0))).1 =
      Outcome.ok :=
  ⟨fun _ => rfl, by decide,
    (c5_redo_amended env0
      (st0 [mkDef "m1" 1 "u1" "d1", mkDef "m2" 2 "u2" "d2"]
        (stepsSucc [mkDef "m1" 1 "u1" "d1", mkDef "m2" 2 "u2" "d2"] 0 2 0))
      [mkDef "m1" 1 "u1" "d1", mkDef "m2" 2 "u2" "d2"] 2 0
      (mkDef "m2" 2 "u2" "d2")
      (fun _ => rfl) rfl (by decide) rfl rfl (by decide) (by decide) rfl
      (by decide) (by decide)).2.1⟩
